import Mathlib

/-!
# Epoch-driven reconciliation of the stake pool daemon

Shallow embedding of `internal/application/stakepool` (`types.go`,
`update_validators.go`): the two entry points `PoolUpdate` and `IncreaseStake`,
their helpers `takeUnstakedBalance` and `requestedDecreaseValidatorStake`, and
the rebalance function `stakeDistribution`.

The chain is a state `W` with pure reads (`Chain.view`) and a transition taken
by every signed transaction (`Chain.send`).  Every function returns what it
returned, the transactions it sent together with their responses, and the chain
state it left behind.
-/

namespace StakePool

/-! ## Go errors -/

/-- A Go `error` value: `none` is `nil`. -/
abbrev GoError := Option String

/-- The function `errors.Wrap` of `github.com/pkg/errors`: wrapping `nil` gives `nil`. -/
def errorsWrap (err : GoError) (msg : String) : GoError :=
  match err with
  | none => none
  | some e => some (msg ++ ": " ++ e)

/-- The functions `errors.New` and `errors.Errorf`: always a non-nil error. -/
def errorsNew (msg : String) : GoError := some msg

/-- How a Go function ended: it returned its `error` result, or the runtime
panicked (index out of range, integer division by zero). -/
inductive Outcome where
  | returned (err : GoError)
  | panicked (msg : String)
  deriving DecidableEq, Repr

/-! ## Numeric core -/

/-- The method `Div` of the decimal library `github.com/shopspring/decimal` (the
library is not among the repository sources), on whole numbers of base units.
The result is given in units of `10 ^ -16`: `Div` is `DivRound` with
`DivisionPrecision = 16`, which takes the quotient truncated to 16 fractional
digits (`QuoRem`) and moves it one unit away from zero when twice the remainder
reaches the divisor.  (A zero divisor panics in the library; the divisors of
the source are a non-zero length and `minRebalanceStake`.) -/
def decimalDiv (d d2 : Int) : Int :=
  let q := Int.tdiv (d * 10 ^ 16) d2
  let r := Int.tmod (d * 10 ^ 16) d2
  if 2 * r.natAbs < d2.natAbs then q
  else if d.sign * d2.sign < 0 then q - 1
  else q + 1

/-- The chain `Div(d2).Truncate(0)`: the rounded quotient, cut at the decimal point. -/
def decimalDivTruncate (d d2 : Int) : Int := Int.tdiv (decimalDiv d d2) (10 ^ 16)

/-- Conversion `big.Int.Int64`: the low 64 bits of the magnitude with the sign
put back, in two-complement `int64`. -/
def bigIntInt64 (x : Int) : Int :=
  let low : Int := ((x.natAbs % 2 ^ 64 : Nat) : Int)
  let signed : Int := if x < 0 then -low else low
  (signed + 2 ^ 63) % 2 ^ 64 - 2 ^ 63

/-- The chain `Div(d2).IntPart()`: the integer part of the rounded quotient,
converted to `int64`. -/
def decimalDivIntPart (d d2 : Int) : Int := bigIntInt64 (Int.tdiv (decimalDiv d d2) (10 ^ 16))

/-- The method `Mod` of the decimal library on whole numbers of base units: the
remainder of the truncating division. -/
def decimalMod (d d2 : Int) : Int := Int.tmod d d2

/-- The package variable `minRebalanceStake = decimal.New(1, 24)`. -/
def minRebalanceStake : Int := 10 ^ 24

/-! ## Data model (`types.go`) -/

/-- The string constants `ClassicStakeDecreasingType` and `InvestmentStakeDecreasingType`. -/
inductive stakeDecreasingType where
  | Classic
  | Investment
  deriving DecidableEq, Repr

structure Validator where
  AccountID : String
  ClassicStakedBalance : Int
  InvestmentStakedBalance : Int
  UnstakedBalance : Int
  IsOnlyForInvestment : Bool
  LastUpdateEpochHeight : Nat
  LastClassicStakeIncreasingEpochHeight : Option Nat
  deriving DecidableEq, Repr

structure AccountView where
  Amount : Int
  BlockHash : String
  deriving DecidableEq, Repr

structure GenesisConfig where
  EpochLength : Nat
  GenesisHeight : Nat
  deriving DecidableEq, Repr

structure Fund where
  ClassicUnstakedBalance : Int
  ClassicStakedBalance : Int
  InvestmentStakedBalance : Int
  CommonStakedBalance : Int
  CommonBalance : Int
  deriving DecidableEq, Repr

structure EpochHeightRegistry where
  PoolEpochHeight : Nat
  NetworkEpochHeight : Nat
  deriving DecidableEq, Repr

structure CallbackResult where
  IsSuccess : Bool
  NetworkEpochHeight : Nat
  deriving DecidableEq, Repr

/-- One element of an `[]interface{}` entry of `InvestmentWithdrawalRegistry`:
a JSON string, or any other JSON value. -/
inductive JsonField where
  | str (s : String)
  | other
  deriving DecidableEq, Repr

structure RequestedToWithdrawalFund where
  ClassicNearAmount : Int
  InvestmentNearAmount : Int
  InvestmentWithdrawalRegistry : List (List JsonField)
  deriving DecidableEq, Repr

/-! ## Chain gateway -/

/-- A function call action sent to the stake pool contract, with its JSON arguments. -/
inductive Call where
  | take_unstaked_balance (validator_account_id : String)
  | update_validator (validator_account_id : String)
  | requested_decrease_validator_stake (validator_account_id : String) (near_amount : Int)
      (stake_decreasing_type : stakeDecreasingType)
  | update
  | increase_validator_stake (validator_account_id : String) (near_amount : Int)
  | confirm_stake_distribution
  deriving DecidableEq, Repr

/-- The decoded `SuccessValue` of a transaction, as JSON. -/
inductive ResponseBody where
  | callbackResult (r : CallbackResult)
  | boolean (b : Bool)
  | malformed
  deriving DecidableEq, Repr

/-- What `TransactionSendAwait` gave back: a transport error, a `Failure`
status, or a success value. -/
inductive SendOutcome where
  | rpcError (msg : String)
  | failure (msg : String)
  | successValue (body : ResponseBody)
  deriving DecidableEq, Repr

/-- The call `json.Unmarshal(data, &resp)` with `resp` a `CallbackResult`. -/
def unmarshalCallbackResult : ResponseBody → Except String CallbackResult
  | .callbackResult r => .ok r
  | _ => .error "json: cannot unmarshal"

/-- The call `json.Unmarshal(data, &resp)` with `resp` a `bool`. -/
def unmarshalBool : ResponseBody → Except String Bool
  | .boolean b => .ok b
  | _ => .error "json: cannot unmarshal"

/-- Everything the daemon can read at one chain state: genesis config, latest
block height, the signer account and the contract views, each one either an
error or the unmarshalled value. -/
structure View where
  genesisConfig : Except String GenesisConfig
  latestBlockHeight : Except String Nat
  accountView : Except String AccountView
  get_current_epoch_height : Except String EpochHeightRegistry
  get_validator_registry : Except String (List Validator)
  get_fund : Except String Fund
  get_requested_to_withdrawal_fund : Except String RequestedToWithdrawalFund
  is_stake_distributed : Except String Bool

/-- The chain as seen through the RPC client: reads do not change the state,
a sent transaction does. -/
structure Chain (W : Type) where
  view : W → View
  send : W → Call → SendOutcome × W

/-- The transactions sent so far, each with what came back. -/
abbrev Trace := List (Call × SendOutcome)

/-- The run of a function: how it ended, what it sent, and the chain state after. -/
structure Tick (W : Type) where
  result : Outcome
  sent : Trace
  world : W

/-- The run of a helper or of a loop: the error it returned (`none` when the
helper returned `nil`, or the loop ran to its end without returning), what it
sent, and the chain state after. -/
structure Run (W : Type) where
  err : GoError
  sent : Trace
  world : W

/-- The calls of a trace, without the responses. -/
def calls (t : Trace) : List Call := t.map Prod.fst

/-! ## `IncreaseStake` -/

structure validatorShare where
  validator : Validator
  stake : Int
  deriving DecidableEq, Repr

/-- The candidate filter of `IncreaseStake` (the loop over `validators` that
builds `filteredValidators`). -/
def filterCandidates (poolEpochHeight : Nat) (validators : List Validator) : List Validator :=
  validators.filter fun validator =>
    !validator.IsOnlyForInvestment &&
      (match validator.LastClassicStakeIncreasingEpochHeight with
        | none => true
        | some e => decide (e < poolEpochHeight))

/-- The loop `for i := 0; i < n; i++ { shares = append(shares, {filteredValidators[i], part}) }`
after `n` rounds; `none` when an index was out of range. -/
def appendShares (filteredValidators : List Validator) (part : Int) :
    Nat → Option (List validatorShare)
  | 0 => some []
  | n + 1 =>
    match appendShares filteredValidators part n, filteredValidators[n]? with
    | some shares, some v => some (shares ++ [{ validator := v, stake := part }])
    | _, _ => none

/-- The statement `shares[len(shares)-1].stake = shares[len(shares)-1].stake.Add(modAmount)`;
`none` when `shares` is empty (index out of range). -/
def addToLast (shares : List validatorShare) (modAmount : Int) :
    Option (List validatorShare) :=
  match shares.getLast? with
  | none => none
  | some last => some (shares.dropLast ++ [{ last with stake := last.stake + modAmount }])

/-- The allocation of `IncreaseStake` (the block that fills `shares`), for a
non-empty `filteredValidators`; `none` when it panics. -/
def computeShares (classicUnstakedBalance : Int) (filteredValidators : List Validator) :
    Option (List validatorShare) :=
  let part := decimalDivTruncate classicUnstakedBalance (filteredValidators.length : Int)
  if part < minRebalanceStake then
    let numberOfValidators := decimalDivIntPart classicUnstakedBalance minRebalanceStake
    match appendShares filteredValidators part numberOfValidators.toNat with
    | none => none
    | some shares => addToLast shares (decimalMod classicUnstakedBalance minRebalanceStake)
  else
    match appendShares filteredValidators part filteredValidators.length with
    | none => none
    | some shares =>
      addToLast shares (decimalMod classicUnstakedBalance (filteredValidators.length : Int))

/-- The loop of `IncreaseStake` that sends one `increase_validator_stake` per share. -/
def sendShares {W : Type} (ch : Chain W) : List validatorShare → W → Run W
  | [], w => { err := none, sent := [], world := w }
  | share :: rest, w =>
    let call := Call.increase_validator_stake share.validator.AccountID share.stake
    let r := ch.send w call
    match r.1 with
    | .rpcError e =>
      { err := errorsWrap (some e) "TransactionSendAwait(increase_validator_stake)",
        sent := [(call, r.1)], world := r.2 }
    | .failure e =>
      { err := errorsNew ("increase validator stake " ++ e), sent := [(call, r.1)], world := r.2 }
    | .successValue body =>
      match unmarshalBool body with
      | .error e =>
        { err := errorsWrap (some e) "json.Unmarshal(resp)", sent := [(call, r.1)], world := r.2 }
      | .ok resp =>
        if !resp then { err := errorsNew "false result", sent := [(call, r.1)], world := r.2 }
        else
          let next := sendShares ch rest r.2
          { err := next.err, sent := (call, r.1) :: next.sent, world := next.world }

/-- The entry point `Service.IncreaseStake`. -/
def IncreaseStake {W : Type} (ch : Chain W) (w : W) : Tick W :=
  match (ch.view w).genesisConfig with
  | .error e => ⟨.returned (errorsWrap (errorsWrap (some e) "GenesisConfig") "getGenesisConfig"), [], w⟩
  | .ok genesis =>
  match (ch.view w).latestBlockHeight with
  | .error e => ⟨.returned (errorsWrap (some e) "BlockDetails"), [], w⟩
  | .ok height =>
  if genesis.EpochLength = 0 then ⟨.panicked "integer divide by zero", [], w⟩
  else
  let remain := height % genesis.EpochLength
  -- `genesis.EpochLength-6480` is a `uint64` subtraction
  if remain < (genesis.EpochLength + 2 ^ 64 - 6480) % 2 ^ 64 then ⟨.returned none, [], w⟩
  else
  match (ch.view w).is_stake_distributed with
  | .error e =>
    ⟨.returned (errorsWrap (some e) "callContractWithUnmarshal(is_stake_distributed)"), [], w⟩
  | .ok isDistributed =>
  if isDistributed then ⟨.returned none, [], w⟩
  else
  match (ch.view w).get_current_epoch_height with
  | .error e =>
    ⟨.returned (errorsWrap (some e) "callContractWithUnmarshal(get_current_epoch_height)"), [], w⟩
  | .ok epochs =>
  -- here `err` is the nil left by the successful view call
  if epochs.NetworkEpochHeight ≠ epochs.PoolEpochHeight then
    ⟨.returned (errorsWrap none "epochs are different"), [], w⟩
  else
  match (ch.view w).get_validator_registry with
  | .error e =>
    ⟨.returned (errorsWrap (some e) "callContractWithUnmarshal(get_validator_registry)"), [], w⟩
  | .ok validators =>
  let filteredValidators := filterCandidates epochs.PoolEpochHeight validators
  match (ch.view w).get_fund with
  | .error e => ⟨.returned (errorsWrap (some e) "callContractWithUnmarshal(get_fund)"), [], w⟩
  | .ok fund =>
  if fund.ClassicUnstakedBalance = 0 then ⟨.returned none, [], w⟩
  else
  if filteredValidators.length = 0 then ⟨.returned none, [], w⟩
  else
  match computeShares fund.ClassicUnstakedBalance filteredValidators with
  | none => ⟨.panicked "index out of range", [], w⟩
  | some shares =>
  let run := sendShares ch shares w
  match run.err with
  | some e => ⟨.returned (some e), run.sent, run.world⟩
  | none =>
  let call := Call.confirm_stake_distribution
  let r := ch.send run.world call
  match r.1 with
  | .rpcError e =>
    ⟨.returned (errorsWrap (some e) "TransactionSendAwait(confirm_stake_distribution)"),
      run.sent ++ [(call, r.1)], r.2⟩
  | .failure e =>
    ⟨.returned (errorsNew ("confirm stake distribution " ++ e)), run.sent ++ [(call, r.1)], r.2⟩
  | .successValue _ => ⟨.returned none, run.sent ++ [(call, r.1)], r.2⟩

/-! ## `PoolUpdate` and its helpers -/

/-- One mutating call answered by a `CallbackResult`: send, then the checks the
source repeats after every such call (transport error, `Failure` status,
unmarshalling, `IsSuccess`, `NetworkEpochHeight`).  Gives the error to return
(`none` to go on), the response, and the chain state after. -/
def sendCallback {W : Type} (ch : Chain W) (w : W) (call : Call) (networkEpochHeight : Nat)
    (wrapMsg failureMsg accountID : String) : GoError × SendOutcome × W :=
  let r := ch.send w call
  match r.1 with
  | .rpcError e => (errorsWrap (some e) wrapMsg, r.1, r.2)
  | .failure e => (errorsNew (failureMsg ++ e), r.1, r.2)
  | .successValue body =>
    match unmarshalCallbackResult body with
    | .error e => (errorsWrap (some e) "json.Unmarshal(resp)", r.1, r.2)
    | .ok resp =>
      if !resp.IsSuccess then (errorsNew ("fail result from validator " ++ accountID), r.1, r.2)
      else if resp.NetworkEpochHeight ≠ networkEpochHeight then
        (errorsNew ("mismatch epoch after update " ++ toString resp.NetworkEpochHeight ++ " != " ++
          toString networkEpochHeight), r.1, r.2)
      else (none, r.1, r.2)

/-- The loop of `takeUnstakedBalance` over the registry. -/
def takeUnstakedBalanceLoop {W : Type} (ch : Chain W) (networkEpochHeight : Nat) :
    List Validator → W → Run W
  | [], w => { err := none, sent := [], world := w }
  | validator :: rest, w =>
    if validator.LastUpdateEpochHeight = networkEpochHeight then
      takeUnstakedBalanceLoop ch networkEpochHeight rest w
    else if validator.UnstakedBalance > 0 then
      let call := Call.take_unstaked_balance validator.AccountID
      let r := sendCallback ch w call networkEpochHeight
        "TransactionSendAwait(take_unstaked_balance)" "decrease validator stake: "
        validator.AccountID
      match r.1 with
      | some e => { err := some e, sent := [(call, r.2.1)], world := r.2.2 }
      | none =>
        let next := takeUnstakedBalanceLoop ch networkEpochHeight rest r.2.2
        { err := next.err, sent := (call, r.2.1) :: next.sent, world := next.world }
    else takeUnstakedBalanceLoop ch networkEpochHeight rest w

/-- The helper `Service.takeUnstakedBalance`. -/
def takeUnstakedBalance {W : Type} (ch : Chain W) (w : W) : Run W :=
  match (ch.view w).get_current_epoch_height with
  | .error e =>
    { err := errorsWrap (some e) "callContractWithUnmarshal(get_current_epoch_height)",
      sent := [], world := w }
  | .ok epochs =>
  if epochs.NetworkEpochHeight % 4 ≠ 0 ∨ epochs.PoolEpochHeight ≥ epochs.NetworkEpochHeight then
    { err := none, sent := [], world := w }
  else
  match (ch.view w).get_validator_registry with
  | .error e =>
    { err := errorsWrap (some e) "callContractWithUnmarshal(get_validator_registry)",
      sent := [], world := w }
  | .ok validators => takeUnstakedBalanceLoop ch epochs.NetworkEpochHeight validators w

/-- The classic loop of `requestedDecreaseValidatorStake` over `filteredValidators`,
carrying `nearAmount`. -/
def classicDecreaseLoop {W : Type} (ch : Chain W) (networkEpochHeight : Nat) :
    List Validator → Int → W → Run W
  | [], _, w => { err := none, sent := [], world := w }
  | validator :: rest, nearAmount, w =>
    if nearAmount = 0 then { err := none, sent := [], world := w }
    else if nearAmount ≥ validator.ClassicStakedBalance then
      let call := Call.requested_decrease_validator_stake validator.AccountID
        validator.ClassicStakedBalance stakeDecreasingType.Classic
      let r := sendCallback ch w call networkEpochHeight
        "TransactionSendAwait(requested_decrease_validator_stake)"
        "requested decrease validator stake: " validator.AccountID
      match r.1 with
      | some e => { err := some e, sent := [(call, r.2.1)], world := r.2.2 }
      | none =>
        let next := classicDecreaseLoop ch networkEpochHeight rest
          (nearAmount - validator.ClassicStakedBalance) r.2.2
        { err := next.err, sent := (call, r.2.1) :: next.sent, world := next.world }
    else
      let call := Call.requested_decrease_validator_stake validator.AccountID
        nearAmount stakeDecreasingType.Classic
      let r := sendCallback ch w call networkEpochHeight
        "TransactionSendAwait(requested_decrease_validator_stake)"
        "requested decrease validator stake: " validator.AccountID
      match r.1 with
      | some e => { err := some e, sent := [(call, r.2.1)], world := r.2.2 }
      | none =>
        let next := classicDecreaseLoop ch networkEpochHeight rest 0 r.2.2
        { err := next.err, sent := (call, r.2.1) :: next.sent, world := next.world }

/-- The investment loop of `requestedDecreaseValidatorStake` over
`InvestmentWithdrawalRegistry`.  The parameter `newFromString` is
`decimal.NewFromString` followed by `BigInt()`, `none` when the string does not
parse. -/
def investmentDecreaseLoop {W : Type} (newFromString : String → Option Int) (ch : Chain W)
    (networkEpochHeight : Nat) : List (List JsonField) → W → Run W
  | [], w => { err := none, sent := [], world := w }
  | v :: rest, w =>
    match v with
    | [f0, f1] =>
      match f0 with
      | .other =>
        { err := errorsNew "unknown format of InvestmentWithdrawalRegistry(AccountId)",
          sent := [], world := w }
      | .str investmentWithdrawalRegistryAccountID =>
      match f1 with
      | .other =>
        { err := errorsNew "unknown format of InvestmentWithdrawalRegistry(Amount)",
          sent := [], world := w }
      | .str investmentWithdrawalRegistryAmountStr =>
      match newFromString investmentWithdrawalRegistryAmountStr with
      | none =>
        { err := errorsWrap (some "can not convert to decimal")
            "decimal.NewFromString(investmentWithdrawalRegistryAmountStr)",
          sent := [], world := w }
      | some investmentWithdrawalRegistryAmount =>
      let call := Call.requested_decrease_validator_stake investmentWithdrawalRegistryAccountID
        investmentWithdrawalRegistryAmount stakeDecreasingType.Investment
      let r := sendCallback ch w call networkEpochHeight
        "TransactionSendAwait(requested_decrease_validator_stake)"
        "requested decrease validator stake: " investmentWithdrawalRegistryAccountID
      match r.1 with
      | some e => { err := some e, sent := [(call, r.2.1)], world := r.2.2 }
      | none =>
        let next := investmentDecreaseLoop newFromString ch networkEpochHeight rest r.2.2
        { err := next.err, sent := (call, r.2.1) :: next.sent, world := next.world }
    | _ =>
      { err := errorsNew "unknown format of InvestmentWithdrawalRegistry", sent := [], world := w }

/-- The filter of `requestedDecreaseValidatorStake` that builds `filteredValidators`. -/
def filterClassicStaked (validators : List Validator) : List Validator :=
  validators.filter fun validator =>
    !validator.IsOnlyForInvestment && decide (validator.ClassicStakedBalance > 0)

/-- The helper `Service.requestedDecreaseValidatorStake`. -/
def requestedDecreaseValidatorStake {W : Type} (newFromString : String → Option Int)
    (ch : Chain W) (w : W) : Run W :=
  match (ch.view w).get_current_epoch_height with
  | .error e =>
    { err := errorsWrap (some e) "callContractWithUnmarshal(get_current_epoch_height)",
      sent := [], world := w }
  | .ok epochs =>
  if epochs.NetworkEpochHeight % 4 ≠ 0 ∨ epochs.PoolEpochHeight ≥ epochs.NetworkEpochHeight then
    { err := none, sent := [], world := w }
  else
  match (ch.view w).get_requested_to_withdrawal_fund with
  | .error e =>
    { err := errorsWrap (some e) "callContractWithUnmarshal(get_requested_to_withdrawal_fund)",
      sent := [], world := w }
  | .ok requestedToWithdrawalFund =>
  match (ch.view w).get_validator_registry with
  | .error e =>
    { err := errorsWrap (some e) "callContractWithUnmarshal(get_validator_registry)",
      sent := [], world := w }
  | .ok validators =>
  let filteredValidators := filterClassicStaked validators
  let classic := classicDecreaseLoop ch epochs.NetworkEpochHeight filteredValidators
    requestedToWithdrawalFund.ClassicNearAmount w
  match classic.err with
  | some e => { err := some e, sent := classic.sent, world := classic.world }
  | none =>
  let investment := investmentDecreaseLoop newFromString ch epochs.NetworkEpochHeight
    requestedToWithdrawalFund.InvestmentWithdrawalRegistry classic.world
  { err := investment.err, sent := classic.sent ++ investment.sent, world := investment.world }

/-- The loop of `PoolUpdate` that sends `update_validator` over the registry. -/
def updateValidatorLoop {W : Type} (ch : Chain W) (networkEpochHeight : Nat) :
    List Validator → W → Run W
  | [], w => { err := none, sent := [], world := w }
  | v :: rest, w =>
    if v.LastUpdateEpochHeight = networkEpochHeight then
      updateValidatorLoop ch networkEpochHeight rest w
    else
      let call := Call.update_validator v.AccountID
      let r := sendCallback ch w call networkEpochHeight
        ("TransactionSendAwait[validator:" ++ v.AccountID ++ "]") "" v.AccountID
      match r.1 with
      | some e => { err := some e, sent := [(call, r.2.1)], world := r.2.2 }
      | none =>
        let next := updateValidatorLoop ch networkEpochHeight rest r.2.2
        { err := next.err, sent := (call, r.2.1) :: next.sent, world := next.world }

/-- The entry point `Service.PoolUpdate`. -/
def PoolUpdate {W : Type} (newFromString : String → Option Int) (ch : Chain W) (w : W) :
    Tick W :=
  let taken := takeUnstakedBalance ch w
  match taken.err with
  | some e => ⟨.returned (errorsWrap (some e) "takeUnstakedBalance"), taken.sent, taken.world⟩
  | none =>
  match (ch.view taken.world).get_current_epoch_height with
  | .error e =>
    ⟨.returned (errorsWrap (some e) "callContractWithUnmarshal(get_current_epoch_height)"),
      taken.sent, taken.world⟩
  | .ok epochs =>
  if epochs.PoolEpochHeight = epochs.NetworkEpochHeight then
    ⟨.returned none, taken.sent, taken.world⟩
  else
  match (ch.view taken.world).accountView with
  | .error e => ⟨.returned (errorsWrap (some e) "AccountView"), taken.sent, taken.world⟩
  | .ok _ =>
  match (ch.view taken.world).get_validator_registry with
  | .error e =>
    ⟨.returned (errorsWrap (some e) "callContractWithUnmarshal(get_validator_registry)"),
      taken.sent, taken.world⟩
  | .ok validators =>
  let updated := updateValidatorLoop ch epochs.NetworkEpochHeight validators taken.world
  match updated.err with
  | some e => ⟨.returned (some e), taken.sent ++ updated.sent, updated.world⟩
  | none =>
  let decreased := requestedDecreaseValidatorStake newFromString ch updated.world
  match decreased.err with
  | some e =>
    ⟨.returned (errorsWrap (some e) "requestedDecreaseValidatorStake"),
      taken.sent ++ updated.sent ++ decreased.sent, decreased.world⟩
  | none =>
  let call := Call.update
  let r := ch.send decreased.world call
  match r.1 with
  | .rpcError e =>
    ⟨.returned (errorsWrap (some e) "TransactionSendAwait(update)"),
      taken.sent ++ updated.sent ++ decreased.sent ++ [(call, r.1)], r.2⟩
  | .failure e =>
    ⟨.returned (errorsNew ("pool update " ++ e)),
      taken.sent ++ updated.sent ++ decreased.sent ++ [(call, r.1)], r.2⟩
  | .successValue _ =>
    ⟨.returned none, taken.sent ++ updated.sent ++ decreased.sent ++ [(call, r.1)], r.2⟩

/-! ## Sample chains -/

/-- A chain whose views never change and whose transactions are answered by `respond`. -/
def steadyChain (v : View) (respond : Call → SendOutcome) : Chain Unit :=
  { view := fun _ => v, send := fun _ c => (respond c, ()) }

def sampleValidator (id : String) (classicStaked unstaked : Int) (lastUpdate : Nat) : Validator :=
  { AccountID := id, ClassicStakedBalance := classicStaked, InvestmentStakedBalance := 0,
    UnstakedBalance := unstaked, IsOnlyForInvestment := false, LastUpdateEpochHeight := lastUpdate,
    LastClassicStakeIncreasingEpochHeight := none }

/-- A view with an epoch length of 43200 blocks in which every read succeeds. -/
def sampleView (height poolEpoch networkEpoch : Nat) (validators : List Validator)
    (classicUnstaked : Int) (withdrawal : RequestedToWithdrawalFund) : View :=
  { genesisConfig := .ok { EpochLength := 43200, GenesisHeight := 0 }
    latestBlockHeight := .ok height
    accountView := .ok { Amount := 10 ^ 24, BlockHash := "" }
    get_current_epoch_height :=
      .ok { PoolEpochHeight := poolEpoch, NetworkEpochHeight := networkEpoch }
    get_validator_registry := .ok validators
    get_fund := .ok { ClassicUnstakedBalance := classicUnstaked, ClassicStakedBalance := 0,
                      InvestmentStakedBalance := 0, CommonStakedBalance := 0, CommonBalance := 0 }
    get_requested_to_withdrawal_fund := .ok withdrawal
    is_stake_distributed := .ok false }

def fourCandidates : List Validator :=
  [sampleValidator "a" 0 0 100, sampleValidator "b" 0 0 100, sampleValidator "c" 0 0 100,
   sampleValidator "d" 0 0 100]

def noWithdrawal : RequestedToWithdrawalFund :=
  { ClassicNearAmount := 0, InvestmentNearAmount := 0, InvestmentWithdrawalRegistry := [] }

/-- The `near_amount` of every `increase_validator_stake` of a trace, in order. -/
def increaseAmounts : Trace → List Int
  | [] => []
  | (Call.increase_validator_stake _ amount, _) :: rest => amount :: increaseAmounts rest
  | _ :: rest => increaseAmounts rest

/-- Dust collapse: `classic_unstaked = 2.5 * 10 ^ 24`, four candidates, inside
the window (height 40000 of 43200), epochs equal, every call answered `true`. -/
def dustChain : Chain Unit :=
  steadyChain (sampleView 40000 100 100 fourCandidates (25 * 10 ^ 23) noWithdrawal)
    (fun _ => .successValue (.boolean true))

/-- Even split: `classic_unstaked = 10 * 10 ^ 24`, four candidates, inside the
window, epochs equal, every call answered `true`. -/
def evenChain : Chain Unit :=
  steadyChain (sampleView 40000 100 100 fourCandidates (10 * 10 ^ 24) noWithdrawal)
    (fun _ => .successValue (.boolean true))

/-- Inside the window and not yet distributed, with the pool one epoch behind
the network (99 against 100). -/
def behindChain : Chain Unit :=
  steadyChain (sampleView 40000 99 100 fourCandidates (10 * 10 ^ 24) noWithdrawal)
    (fun _ => .successValue (.boolean true))

/-- Outside the window: latest height 1000 with an epoch length of 43200. -/
def earlyChain : Chain Unit :=
  steadyChain (sampleView 1000 100 100 fourCandidates (10 * 10 ^ 24) noWithdrawal)
    (fun _ => .successValue (.boolean true))

/-- What a tick of `IncreaseStake` may have sent: nothing, or the trace of
`sendShares` on the shares computed for the candidates, possibly followed by
`confirm_stake_distribution`. -/
def IncreaseSent {W : Type} (ch : Chain W) (w : W) (sent : Trace) : Prop :=
  sent = [] ∨
    ∃ epochs validators fund shares,
      (ch.view w).get_current_epoch_height = .ok epochs ∧
      (ch.view w).get_validator_registry = .ok validators ∧
      (ch.view w).get_fund = .ok fund ∧
      computeShares fund.ClassicUnstakedBalance
        (filterCandidates epochs.PoolEpochHeight validators) = some shares ∧
      (sent = (sendShares ch shares w).sent ∨
        ∃ out, sent = (sendShares ch shares w).sent ++ [(Call.confirm_stake_distribution, out)])

/-- Two stale validators: A with `unstaked = 5 * 10 ^ 24` and `classic_staked = 10 * 10 ^ 24`,
B with `unstaked = 0` and `classic_staked = 4 * 10 ^ 24`, both last updated at epoch 99. -/
def twoValidators : List Validator :=
  [sampleValidator "A" (10 * 10 ^ 24) (5 * 10 ^ 24) 99, sampleValidator "B" (4 * 10 ^ 24) 0 99]

/-- A classic withdrawal request of `3 * 10 ^ 24` and no investment withdrawal. -/
def classicWithdrawal : RequestedToWithdrawalFund :=
  { ClassicNearAmount := 3 * 10 ^ 24, InvestmentNearAmount := 0,
    InvestmentWithdrawalRegistry := [] }

/-- An amount parser for the sample chains: plain decimal integers. -/
def sampleNewFromString (s : String) : Option Int := s.toInt?

/-- Pool and network both at epoch 100 (a multiple of 4), with stale validators,
an unstaked balance to reclaim and a pending withdrawal. -/
def currentChain : Chain Unit :=
  steadyChain (sampleView 1000 100 100 twoValidators 0 classicWithdrawal)
    (fun _ => .successValue (.callbackResult { IsSuccess := true, NetworkEpochHeight := 100 }))

/-- A response that passes the `CallbackResult` checks of a tick that read the
network epoch `E`. -/
def accepted (E : Nat) (out : SendOutcome) : Prop :=
  ∃ r, out = .successValue (.callbackResult r) ∧ r.IsSuccess = true ∧ r.NetworkEpochHeight = E

/-- A trace whose responses were all accepted, except possibly the last one;
and all of them when no error was returned. -/
def Checked (E : Nat) (err : GoError) (sent : Trace) : Prop :=
  (∀ pre x post, sent = pre ++ x :: post → post ≠ [] → accepted E x.2) ∧
    (err = none → ∀ x ∈ sent, accepted E x.2)

/-- The response that passes every check of a tick at network epoch 100. -/
def okAt100 : SendOutcome :=
  .successValue (.callbackResult { IsSuccess := true, NetworkEpochHeight := 100 })

/-- Pool at epoch 99, network at epoch 100 (a multiple of 4), two stale
validators, a classic withdrawal request of `3 * 10 ^ 24`, every call accepted. -/
def staleChain : Chain Unit :=
  steadyChain (sampleView 1000 99 100 twoValidators 0 classicWithdrawal) (fun _ => okAt100)

/-- The chain `staleChain`, except that `update_validator` on `B` is answered
with `is_success = false`. -/
def failingChain : Chain Unit :=
  steadyChain (sampleView 1000 99 100 twoValidators 0 classicWithdrawal)
    (fun c =>
      if c = Call.update_validator "B" then
        .successValue (.callbackResult { IsSuccess := false, NetworkEpochHeight := 100 })
      else okAt100)

/-- The classic withdrawal walk in the words of the spec: walk the validators
with `need`; if `need ≥ classic_staked` decrease the full `classic_staked` and
subtract it from `need`, otherwise decrease exactly `need` and set `need` to
zero; stop when `need` is zero. -/
def classicWalk : Int → List Validator → List Call
  | _, [] => []
  | need, v :: rest =>
    if need = 0 then []
    else if need ≥ v.ClassicStakedBalance then
      Call.requested_decrease_validator_stake v.AccountID v.ClassicStakedBalance
          stakeDecreasingType.Classic ::
        classicWalk (need - v.ClassicStakedBalance) rest
    else [Call.requested_decrease_validator_stake v.AccountID need stakeDecreasingType.Classic]

/-! ## `stakeDistribution` -/

/-- A Go `map[string]decimal.Decimal`: an association list with distinct keys. -/
abbrev Shares := List (String × Int)

/-- The read `shares[id]` with its `ok` flag. -/
def sharesGet (shares : Shares) (id : String) : Option Int :=
  match shares with
  | [] => none
  | (k, value) :: rest => if k = id then some value else sharesGet rest id

/-- The write `shares[id] = value`. -/
def sharesSet (shares : Shares) (id : String) (value : Int) : Shares :=
  match shares with
  | [] => [(id, value)]
  | (k, old) :: rest =>
    if k = id then (k, value) :: rest else (k, old) :: sharesSet rest id value

/-- The sum of the values of a shares map. -/
def sharesTotal (shares : Shares) : Int := (shares.map Prod.snd).sum

/-- The first loop of `stakeDistribution`: adds the already distributed share to
every copied validator and finds `max`, which starts at the value passed in. -/
def fillShares (shares : Shares) : List Validator → Int → List Validator × Int
  | [], max => ([], max)
  | v :: rest, max =>
    let filled : Validator :=
      match sharesGet shares v.AccountID with
      | some share => { v with ClassicStakedBalance := v.ClassicStakedBalance + share }
      | none => v
    let max1 := if filled.ClassicStakedBalance > max then filled.ClassicStakedBalance else max
    let r := fillShares shares rest max1
    (filled :: r.1, r.2)

/-- One insertion of the insertion sort: `v` moves left past every validator with
a strictly smaller balance. -/
def insertDescending (v : Validator) : List Validator → List Validator
  | [] => [v]
  | x :: rest =>
    if x.ClassicStakedBalance < v.ClassicStakedBalance then v :: x :: rest
    else x :: insertDescending v rest

/-- The insertion sort that `sort.Slice` runs on short slices (at most 12
elements in current Go releases), with the comparator
`copiedValidators[i].ClassicStakedBalance.GreaterThan(copiedValidators[j].ClassicStakedBalance)`:
a descending sort. -/
def sortSlice (copiedValidators : List Validator) : List Validator :=
  copiedValidators.foldl (fun sorted v => insertDescending v sorted) []

/-- What `sort.Slice` with the comparator of `stakeDistribution` guarantees at
every length: the result is a permutation of the slice in which no validator
comes before one with a strictly larger balance.  The order among validators
with equal balances is left to the sorting algorithm. -/
def SortsDescending (sort : List Validator → List Validator) : Prop :=
  ∀ l, (sort l).Perm l ∧
    (sort l).Pairwise fun a b => b.ClassicStakedBalance ≤ a.ClassicStakedBalance

/-- The state after the levelling loop of `stakeDistribution`: the shares, what
remains of the stake, and whether the loop body returned. -/
structure LevelRun where
  shares : Shares
  stakeRemains : Int
  returned : Bool
  deriving DecidableEq, Repr

/-- The levelling loop of `stakeDistribution` over the sorted validators. -/
def levelLoop (max : Int) : List Validator → Shares → Int → LevelRun
  | [], shares, stakeRemains => { shares := shares, stakeRemains := stakeRemains, returned := false }
  | v :: rest, shares, stakeRemains =>
    let lack := max - v.ClassicStakedBalance
    if stakeRemains ≥ lack then
      levelLoop max rest
        (sharesSet shares v.AccountID ((sharesGet shares v.AccountID).getD 0 + lack))
        (stakeRemains - lack)
    else if stakeRemains > 0 then
      { shares := sharesSet shares v.AccountID
          ((sharesGet shares v.AccountID).getD 0 + stakeRemains),
        stakeRemains := 0, returned := true }
    else { shares := shares, stakeRemains := stakeRemains, returned := true }

/-- The test `copiedValidators[0].ClassicStakedBalance.Equals(max)` of
`stakeDistribution`, on the validators as passed in (non-empty) and the shares
distributed so far.  The parameter `sort` is the call `sort.Slice`. -/
def levelTest (sort : List Validator → List Validator) (shares : Shares)
    (validators : List Validator) : Bool :=
  match validators with
  | [] => false
  | first :: _ =>
    let filled := fillShares shares validators first.ClassicStakedBalance
    match sort filled.1 with
    | [] => false
    | top :: _ => decide (top.ClassicStakedBalance = filled.2)

/-- The function `stakeDistribution`: the shares map it leaves behind.  The
parameter `sort` is the call `sort.Slice` (of the Go standard library) with the
comparator of the source.  The argument after it bounds the depth of the
recursion; `none` when that depth is used up. -/
def stakeDistribution (sort : List Validator → List Validator) :
    Nat → Int → Shares → List Validator → Option Shares
  | _, _, shares, [] => some shares
  | 0, _, _, _ :: _ => none
  | fuel + 1, stakeRemains, shares, first :: others =>
    let validators := first :: others
    let filled := fillShares shares validators first.ClassicStakedBalance
    let copiedValidators := sort filled.1
    let max := filled.2
    if levelTest sort shares validators then
      let part := decimalDivTruncate stakeRemains (validators.length : Int)
      if part > minRebalanceStake then some (shares.map fun p => (p.1, p.2 + part))
      else
        match copiedValidators with
        | [] => none
        | top :: _ => some (sharesSet shares top.AccountID stakeRemains)
    else
      let run := levelLoop max copiedValidators shares stakeRemains
      if run.returned then some run.shares
      else if run.stakeRemains = 0 then some run.shares
      else stakeDistribution sort fuel run.stakeRemains run.shares copiedValidators

/-- Validators A, B, C with `classic_staked` of 10, 6 and 4 whole tokens. -/
def threeValidators : List Validator :=
  [sampleValidator "A" (10 * 10 ^ 24) 0 99, sampleValidator "B" (6 * 10 ^ 24) 0 99,
   sampleValidator "C" (4 * 10 ^ 24) 0 99]

/-- Half a token to distribute: `classic_unstaked = 5 * 10 ^ 23`, four candidates,
inside the window, epochs equal, every call answered `true`. -/
def halfTokenChain : Chain Unit :=
  steadyChain (sampleView 40000 100 100 fourCandidates (5 * 10 ^ 23) noWithdrawal)
    (fun _ => .successValue (.boolean true))

/-- The first element of a list carries the largest balance. -/
def HeadMax : List Validator → Prop
  | [] => True
  | top :: rest => ∀ x ∈ rest, x.ClassicStakedBalance ≤ top.ClassicStakedBalance

/-- The `near_amount` of every Classic `requested_decrease_validator_stake` in a
list of calls, in order. -/
def classicAmounts : List Call → List Int
  | [] => []
  | Call.requested_decrease_validator_stake _ amount stakeDecreasingType.Classic :: rest =>
    amount :: classicAmounts rest
  | _ :: rest => classicAmounts rest

/-- The chain `staleChain` with a classic withdrawal request of `12 * 10 ^ 24`, more
than validator `A` holds and less than `A` and `B` hold together. -/
def largeWithdrawalChain : Chain Unit :=
  steadyChain
    (sampleView 1000 99 100 twoValidators 0
      { ClassicNearAmount := 12 * 10 ^ 24, InvestmentNearAmount := 0,
        InvestmentWithdrawalRegistry := [] })
    (fun _ => okAt100)

/-- The network epoch that `get_current_epoch_height` gives at a chain state. -/
def networkEpochAt {W : Type} (ch : Chain W) (w : W) : Option Nat :=
  match (ch.view w).get_current_epoch_height with
  | .ok epochs => some epochs.NetworkEpochHeight
  | .error _ => none

/-- The network epoch read by the phase of `PoolUpdate` that sends `call`, in the
tick started at `w`: `takeUnstakedBalance` reads it at the start of the tick,
`PoolUpdate` reads it again once `takeUnstakedBalance` has returned, and
`requestedDecreaseValidatorStake` reads it again after the `update_validator`
loop. -/
def phaseEpoch {W : Type} (ch : Chain W) (w : W) : Call → Option Nat
  | .take_unstaked_balance _ => networkEpochAt ch w
  | .update_validator _ => networkEpochAt ch (takeUnstakedBalance ch w).world
  | .requested_decrease_validator_stake _ _ _ =>
    match (ch.view (takeUnstakedBalance ch w).world).get_current_epoch_height,
      (ch.view (takeUnstakedBalance ch w).world).get_validator_registry with
    | .ok epochs, .ok validators =>
      networkEpochAt ch
        (updateValidatorLoop ch epochs.NetworkEpochHeight validators
          (takeUnstakedBalance ch w).world).world
    | _, _ => none
  | _ => none

/-- A response that passes the `CallbackResult` checks of the phase that sent
the call. -/
def acceptedBy {W : Type} (ch : Chain W) (w : W) (x : Call × SendOutcome) : Prop :=
  ∃ E, phaseEpoch ch w x.1 = some E ∧ accepted E x.2

/-- A trace whose entries all satisfy `P`, except possibly the last one; and all
of them when no error was returned. -/
def CheckedBy (P : Call × SendOutcome → Prop) (err : GoError) (sent : Trace) : Prop :=
  (∀ pre x post, sent = pre ++ x :: post → post ≠ [] → P x) ∧
    (err = none → ∀ x ∈ sent, P x)

/-- The shape of a tick of `PoolUpdate`: the calls of the three phases (none of
them `update`), each validated by its phase, and then either nothing more (with
an error result when a phase returned one) or `update`, sent only after every
phase went through. -/
def PoolShape {W : Type} (P : Call × SendOutcome → Prop) (t : Tick W) : Prop :=
  ∃ (body : Trace) (err : GoError),
    (∀ x ∈ body, x.1 ≠ Call.update) ∧ CheckedBy P err body ∧
      ((t.sent = body ∧ (err ≠ none → ∃ e, t.result = .returned (some e))) ∨
        (err = none ∧ ∃ out, t.sent = body ++ [(Call.update, out)]))

/-- The network epoch of `advancingChain` after `n` transactions. -/
def advancingEpoch (n : Nat) : Nat := if n = 0 then 103 else 104

/-- A chain that moves from network epoch 103 to 104 with the first transaction:
pool epoch 102, one validator `A` last updated at 102, a classic withdrawal
request of `3 * 10 ^ 24`; every response carries the network epoch of the
moment. -/
def advancingChain : Chain Nat :=
  { view := fun n =>
      sampleView 1000 102 (advancingEpoch n) [sampleValidator "A" (10 * 10 ^ 24) 0 102] 0
        classicWithdrawal
    send := fun n _ =>
      (SendOutcome.successValue (ResponseBody.callbackResult
        { IsSuccess := true, NetworkEpochHeight := advancingEpoch n }), n + 1) }

/-! ## Allocation of `IncreaseStake` -/

theorem appendShares_of_le (fv : List Validator) (part : Int) :
    ∀ n, n ≤ fv.length →
      appendShares fv part n = some ((fv.take n).map fun v => { validator := v, stake := part })
  | 0, _ => by simp [appendShares]
  | n + 1, h => by
    have hn : n < fv.length := h
    rw [appendShares, appendShares_of_le fv part n (Nat.le_of_lt hn), List.getElem?_eq_getElem hn]
    simp only [List.take_succ, List.getElem?_eq_getElem hn, Option.toList, List.map_append,
      List.map_cons, List.map_nil]

theorem addToLast_concat (ys : List validatorShare) (a : validatorShare) (m : Int) :
    addToLast (ys ++ [a]) m = some (ys ++ [{ a with stake := a.stake + m }]) := by
  simp [addToLast]

theorem bigIntInt64_of_lt (x : Int) (h0 : 0 ≤ x) (h1 : x < 2 ^ 63) : bigIntInt64 x = x := by
  have hlow : ((x.natAbs % 2 ^ 64 : Nat) : Int) = x := by omega
  show ((if x < 0 then -((x.natAbs % 2 ^ 64 : Nat) : Int) else ((x.natAbs % 2 ^ 64 : Nat) : Int))
      + 2 ^ 63) % 2 ^ 64 - 2 ^ 63 = x
  rw [hlow, if_neg (by omega)]
  omega

/-- On non-negative amounts `Div` is the quotient and remainder of `d * 10 ^ 16`,
rounded up from half the divisor. -/
theorem decimalDiv_nonneg (d d2 : Int) (hd : 0 ≤ d) (hd2 : 0 < d2) :
    decimalDiv d d2 =
      if 2 * (d * 10 ^ 16 % d2) < d2 then d * 10 ^ 16 / d2 else d * 10 ^ 16 / d2 + 1 := by
  have ha : (0 : Int) ≤ d * 10 ^ 16 := Int.mul_nonneg hd (by norm_num)
  have hq : Int.tdiv (d * 10 ^ 16) d2 = d * 10 ^ 16 / d2 := Int.tdiv_eq_ediv ha (le_of_lt hd2)
  have hr : Int.tmod (d * 10 ^ 16) d2 = d * 10 ^ 16 % d2 := Int.tmod_eq_emod ha (le_of_lt hd2)
  have hr0 : 0 ≤ d * 10 ^ 16 % d2 := Int.emod_nonneg _ (ne_of_gt hd2)
  have hsign : ¬ d.sign * d2.sign < 0 := by
    rw [Int.sign_eq_one_of_pos hd2, Int.mul_one]
    rcases lt_or_eq_of_le hd with h | h
    · rw [Int.sign_eq_one_of_pos h]; decide
    · rw [← h]; decide
  unfold decimalDiv
  simp only [hq, hr, hsign, if_false]
  by_cases hc : 2 * (d * 10 ^ 16 % d2) < d2
  · rw [if_pos hc, if_pos (by omega)]
  · rw [if_neg hc, if_neg (by omega)]

/-- Against `minRebalanceStake` the rounding of `Div` adds `5 * 10 ^ 7` base units
before the floor: `Div(minRebalanceStake)` cut at the decimal point. -/
theorem decimalDivTruncate_min (u : Int) (hu : 0 ≤ u) :
    decimalDivTruncate u (10 ^ 24) = (u + 5 * 10 ^ 7) / 10 ^ 24 := by
  unfold decimalDivTruncate
  rw [decimalDiv_nonneg u _ hu (by norm_num)]
  have h0 : (0 : Int) ≤ if 2 * (u * 10 ^ 16 % 10 ^ 24) < 10 ^ 24 then u * 10 ^ 16 / 10 ^ 24
      else u * 10 ^ 16 / 10 ^ 24 + 1 := by
    split <;> omega
  rw [Int.tdiv_eq_ediv h0 (by norm_num)]
  split <;> omega

/-- The quotient kept by `Div` never falls below the floor of the exact one. -/
theorem floor_le_decimalDivTruncate (u N : Int) (hu : 0 ≤ u) (hN : 0 < N) :
    u / N ≤ decimalDivTruncate u N := by
  unfold decimalDivTruncate
  rw [decimalDiv_nonneg u N hu hN]
  have ha : (0 : Int) ≤ u * 10 ^ 16 := Int.mul_nonneg hu (by norm_num)
  have hq0 : 0 ≤ u * 10 ^ 16 / N := Int.ediv_nonneg ha (le_of_lt hN)
  have hle : u / N * 10 ^ 16 ≤ u * 10 ^ 16 / N := by
    rw [Int.le_ediv_iff_mul_le hN]
    have h1 : u / N * N ≤ u := Int.ediv_mul_le u (ne_of_gt hN)
    nlinarith
  have h0 : (0 : Int) ≤ if 2 * (u * 10 ^ 16 % N) < N then u * 10 ^ 16 / N
      else u * 10 ^ 16 / N + 1 := by
    split <;> omega
  rw [Int.tdiv_eq_ediv h0 (by norm_num), Int.le_ediv_iff_mul_le (by norm_num)]
  split <;> omega

/-- Below a divisor of `2 * 10 ^ 16` the 16 fractional digits of `Div` do not
reach the integer part: `Div` followed by `Truncate(0)` is the floor. -/
theorem decimalDivTruncate_floor (u N : Int) (hu : 0 ≤ u) (hN : 0 < N)
    (hN16 : N < 2 * 10 ^ 16) : decimalDivTruncate u N = u / N := by
  apply le_antisymm _ (floor_le_decimalDivTruncate u N hu hN)
  unfold decimalDivTruncate
  rw [decimalDiv_nonneg u N hu hN]
  have ha : (0 : Int) ≤ u * 10 ^ 16 := Int.mul_nonneg hu (by norm_num)
  have hq0 : 0 ≤ u * 10 ^ 16 / N := Int.ediv_nonneg ha (le_of_lt hN)
  have h0 : (0 : Int) ≤ if 2 * (u * 10 ^ 16 % N) < N then u * 10 ^ 16 / N
      else u * 10 ^ 16 / N + 1 := by
    split <;> omega
  rw [Int.tdiv_eq_ediv h0 (by norm_num)]
  have hr0 : 0 ≤ u * 10 ^ 16 % N := Int.emod_nonneg _ (ne_of_gt hN)
  have hrN : u * 10 ^ 16 % N < N := Int.emod_lt_of_pos _ hN
  have hdm : N * (u * 10 ^ 16 / N) + u * 10 ^ 16 % N = u * 10 ^ 16 := Int.ediv_add_emod _ _
  have hR0 : 0 ≤ u % N := Int.emod_nonneg _ (ne_of_gt hN)
  have hRN : u % N < N := Int.emod_lt_of_pos _ hN
  have hDM : N * (u / N) + u % N = u := Int.ediv_add_emod _ _
  have hlt : (if 2 * (u * 10 ^ 16 % N) < N then u * 10 ^ 16 / N else u * 10 ^ 16 / N + 1) <
      (u / N + 1) * 10 ^ 16 := by
    have key : N * (if 2 * (u * 10 ^ 16 % N) < N then u * 10 ^ 16 / N
        else u * 10 ^ 16 / N + 1) < N * ((u / N + 1) * 10 ^ 16) := by
      split
      · nlinarith
      · nlinarith
    exact lt_of_mul_lt_mul_left key (le_of_lt hN)
  have := Int.ediv_lt_of_lt_mul (show (0 : Int) < 10 ^ 16 by norm_num) hlt
  omega

/-- In the branch `part < minRebalanceStake` the number of validators served does
not exceed the number of candidates. -/
theorem dust_count_le (u N : Int) (hu : 0 ≤ u) (hN : 0 < N)
    (hpart : decimalDivTruncate u N < 10 ^ 24) : (u + 5 * 10 ^ 7) / 10 ^ 24 ≤ N := by
  have h1 : u / N < 10 ^ 24 := lt_of_le_of_lt (floor_le_decimalDivTruncate u N hu hN) hpart
  have h2 : u < 10 ^ 24 * N := Int.lt_mul_of_ediv_lt hN h1
  have h3 : (u + 5 * 10 ^ 7) / 10 ^ 24 < N + 1 :=
    Int.ediv_lt_of_lt_mul (by norm_num) (by linarith)
  omega

/-- On a non-negative balance and a candidate list that fits an `int`, the
allocation with the count of the dust branch in closed form. -/
theorem computeShares_eq (u : Int) (fv : List Validator) (hu : 0 ≤ u) (hN : 1 ≤ fv.length)
    (hlen : fv.length < 2 ^ 63) :
    computeShares u fv =
      if decimalDivTruncate u (fv.length : Int) < 10 ^ 24 then
        (appendShares fv (decimalDivTruncate u (fv.length : Int))
          ((u + 5 * 10 ^ 7) / 10 ^ 24).toNat).bind
          fun shares => addToLast shares (u % 10 ^ 24)
      else
        (appendShares fv (decimalDivTruncate u (fv.length : Int)) fv.length).bind
          fun shares => addToLast shares (u % (fv.length : Int)) := by
  have hNpos : (0 : Int) < (fv.length : Int) := by omega
  have hmodN : Int.tmod u (fv.length : Int) = u % (fv.length : Int) :=
    Int.tmod_eq_emod hu (by omega)
  have hmodT : Int.tmod u (10 ^ 24) = u % 10 ^ 24 := Int.tmod_eq_emod hu (by norm_num)
  have hk : decimalDivIntPart u (10 ^ 24) = bigIntInt64 ((u + 5 * 10 ^ 7) / 10 ^ 24) := by
    rw [← decimalDivTruncate_min u hu]
    rfl
  unfold computeShares decimalMod minRebalanceStake
  simp only [hmodN, hmodT, hk]
  by_cases hpart : decimalDivTruncate u (fv.length : Int) < 10 ^ 24
  · have h2 := dust_count_le u (fv.length : Int) hu hNpos hpart
    have h3 : 0 ≤ (u + 5 * 10 ^ 7) / 10 ^ 24 := Int.ediv_nonneg (by omega) (by norm_num)
    have h4 : bigIntInt64 ((u + 5 * 10 ^ 7) / 10 ^ 24) = (u + 5 * 10 ^ 7) / 10 ^ 24 :=
      bigIntInt64_of_lt _ h3 (by omega)
    rw [if_pos hpart, if_pos hpart, h4]
    cases appendShares fv (decimalDivTruncate u (fv.length : Int))
      ((u + 5 * 10 ^ 7) / 10 ^ 24).toNat <;> rfl
  · rw [if_neg hpart, if_neg hpart]
    cases appendShares fv (decimalDivTruncate u (fv.length : Int)) fv.length <;> rfl

/-- The share list built from the first `n + 1` candidates: `part` each, the
last one with `m` on top. -/
theorem allocate_succ (fv : List Validator) (part m : Int) (n : Nat) (hn : n < fv.length) :
    ∃ shares, ((appendShares fv part (n + 1)).bind fun shares => addToLast shares m) = some shares ∧
      shares.length = n + 1 ∧
      ∀ i, i < n + 1 → ∃ v, fv[i]? = some v ∧
        shares[i]? = some { validator := v, stake := if i + 1 = n + 1 then part + m else part } := by
  refine ⟨((fv.take n).map fun v => { validator := v, stake := part }) ++
    [{ validator := fv[n], stake := part + m }], ?_, ?_, ?_⟩
  · rw [appendShares_of_le fv part (n + 1) hn]
    simp only [List.take_succ, List.getElem?_eq_getElem hn, Option.toList, List.map_append,
      List.map_cons, List.map_nil, Option.some_bind, addToLast_concat]
  · simp [List.length_take, Nat.min_eq_left (Nat.le_of_lt hn)]
  · intro i hi
    have hlt : i < fv.length := by omega
    refine ⟨fv[i], List.getElem?_eq_getElem hlt, ?_⟩
    have hlenT : ((fv.take n).map fun v => ({ validator := v, stake := part } : validatorShare)).length
        = n := by
      simp [List.length_take, Nat.min_eq_left (Nat.le_of_lt hn)]
    by_cases hin : i < n
    · rw [List.getElem?_append_left (by rw [hlenT]; exact hin)]
      have hne : ¬ i + 1 = n + 1 := by omega
      simp [List.getElem?_map, List.getElem?_take, hin, List.getElem?_eq_getElem hlt, hne]
    · have hi' : i = n := by omega
      subst hi'
      rw [List.getElem?_append_right (by rw [hlenT]), hlenT]
      simp

/-- Claim C1 (conservation in `IncreaseStake`), evaluated where the code breaks it:
with `classic_unstaked = 2.5 * 10 ^ 24` and four candidates the tick succeeds,
sends `0.625 * 10 ^ 24` and `1.125 * 10 ^ 24` and confirms the distribution, so
the amounts sum to `1.75 * 10 ^ 24`, not to `classic_unstaked`. -/
theorem IncreaseStake_dust_collapse_not_conserved :
    (IncreaseStake dustChain ()).result = .returned none ∧
      calls (IncreaseStake dustChain ()).sent =
        [Call.increase_validator_stake "a" (625 * 10 ^ 21),
         Call.increase_validator_stake "b" (1125 * 10 ^ 21),
         Call.confirm_stake_distribution] ∧
      (increaseAmounts (IncreaseStake dustChain ()).sent).sum = 175 * 10 ^ 22 ∧
      (increaseAmounts (IncreaseStake dustChain ()).sent).sum ≠ 25 * 10 ^ 23 := by
  decide

/-- Claim C2 as stated fails: at `u = 4 * 10 ^ 24 - 1` with four candidates, `part`
is below `10 ^ 24` and `floor(u / 10 ^ 24) = 3`, yet `Div(minRebalanceStake)` rounds
the quotient to `4.0000000000000000` and all four candidates are served, with
`5 * 10 ^ 24 - 5` base units in total. -/
theorem computeShares_serves_one_more :
    (4 * 10 ^ 24 - 1 : Int) / ((fourCandidates.length : Nat) : Int) < 10 ^ 24 ∧
      ((4 * 10 ^ 24 - 1 : Int) / 10 ^ 24).toNat = 3 ∧
      (computeShares (4 * 10 ^ 24 - 1) fourCandidates).map List.length = some 4 ∧
      (computeShares (4 * 10 ^ 24 - 1) fourCandidates).map
          (fun shares => (shares.map fun s => s.stake).sum) = some (5 * 10 ^ 24 - 5) := by
  decide

/-- Claim C2, amended (allocation rule of `IncreaseStake`): for
`classic_unstaked = u ≥ 10 ^ 24` and `N ≥ 1` candidates, with `part` the quotient
`u / N` of `Div` cut at the decimal point, which is `floor(u / N)` for
`N < 2 * 10 ^ 16`: if `part < 10 ^ 24` the shares are the first `k` candidates in
order, where `k = floor((u + 5 * 10 ^ 7) / 10 ^ 24)` is `u / 10 ^ 24` rounded to 16
fractional digits and then cut, with `k ≤ N`, `part` each and
`part + u mod 10 ^ 24` for the `k`-th; otherwise the shares are all `N`
candidates in order, `part` each and `part + u mod N` for the last. -/
theorem computeShares_allocation_rule (u : Int) (candidates : List Validator)
    (hu : 10 ^ 24 ≤ u) (hN : 1 ≤ candidates.length) (hlen : candidates.length < 2 ^ 63) :
    ∃ shares, computeShares u candidates = some shares ∧
      ((candidates.length : Int) < 2 * 10 ^ 16 →
        decimalDivTruncate u (candidates.length : Int) = u / (candidates.length : Int)) ∧
      (decimalDivTruncate u (candidates.length : Int) < 10 ^ 24 →
        shares.length = ((u + 5 * 10 ^ 7) / 10 ^ 24).toNat ∧
        shares.length ≤ candidates.length ∧
        ∀ i, i < shares.length → ∃ v, candidates[i]? = some v ∧
          shares[i]? = some
            { validator := v,
              stake := if i + 1 = shares.length then
                         decimalDivTruncate u (candidates.length : Int) + u % 10 ^ 24
                       else decimalDivTruncate u (candidates.length : Int) }) ∧
      (10 ^ 24 ≤ decimalDivTruncate u (candidates.length : Int) →
        shares.length = candidates.length ∧
        ∀ i, i < shares.length → ∃ v, candidates[i]? = some v ∧
          shares[i]? = some
            { validator := v,
              stake := if i + 1 = shares.length then
                         decimalDivTruncate u (candidates.length : Int) +
                           u % (candidates.length : Int)
                       else decimalDivTruncate u (candidates.length : Int) }) := by
  have hu0 : (0 : Int) ≤ u := le_trans (by norm_num) hu
  have hNpos : (0 : Int) < (candidates.length : Int) := by omega
  have hfloor : (candidates.length : Int) < 2 * 10 ^ 16 →
      decimalDivTruncate u (candidates.length : Int) = u / (candidates.length : Int) :=
    fun h => decimalDivTruncate_floor u _ hu0 hNpos h
  rw [computeShares_eq u candidates hu0 hN hlen]
  by_cases hpart : decimalDivTruncate u (candidates.length : Int) < 10 ^ 24
  · rw [if_pos hpart]
    have h2 := dust_count_le u (candidates.length : Int) hu0 hNpos hpart
    have h3 : (1 : Int) ≤ (u + 5 * 10 ^ 7) / 10 ^ 24 :=
      (Int.le_ediv_iff_mul_le (by norm_num)).2 (by omega)
    obtain ⟨n, hn⟩ : ∃ n, ((u + 5 * 10 ^ 7) / 10 ^ 24).toNat = n + 1 :=
      ⟨((u + 5 * 10 ^ 7) / 10 ^ 24).toNat - 1, by omega⟩
    have hnle : n + 1 ≤ candidates.length := by omega
    obtain ⟨shares, hs, hl, hi⟩ :=
      allocate_succ candidates (decimalDivTruncate u (candidates.length : Int)) (u % 10 ^ 24) n
        (by omega)
    rw [hn]
    refine ⟨shares, hs, hfloor, fun _ => ⟨hl, by omega, ?_⟩, fun h => absurd hpart (not_lt.2 h)⟩
    intro i hlt
    rw [hl] at hlt ⊢
    exact hi i hlt
  · rw [if_neg hpart]
    obtain ⟨n, hn⟩ : ∃ n, candidates.length = n + 1 := ⟨candidates.length - 1, by omega⟩
    obtain ⟨shares, hs, hl, hi⟩ :=
      allocate_succ candidates (decimalDivTruncate u (candidates.length : Int))
        (u % (candidates.length : Int)) n (by omega)
    refine ⟨shares, ?_, hfloor, fun h => absurd h hpart, fun _ => ⟨by omega, ?_⟩⟩
    · rw [← hs]
      congr 2
    · intro i hlt
      rw [hl] at hlt ⊢
      exact hi i hlt

/-- Claim C2, witness: the rule at `u = 2.5 * 10 ^ 24` with four candidates, where
it gives `0.625 * 10 ^ 24` and `1.125 * 10 ^ 24` on candidates 0 and 1 only. -/
theorem computeShares_allocation_rule_witness :
    (10 : Int) ^ 24 ≤ 25 * 10 ^ 23 ∧ 1 ≤ fourCandidates.length ∧
      fourCandidates.length < 2 ^ 63 ∧
      computeShares (25 * 10 ^ 23) fourCandidates =
        some [{ validator := sampleValidator "a" 0 0 100, stake := 625 * 10 ^ 21 },
              { validator := sampleValidator "b" 0 0 100, stake := 1125 * 10 ^ 21 }] ∧
      ∃ shares, computeShares (25 * 10 ^ 23) fourCandidates = some shares ∧
        shares.length = 2 :=
  ⟨by decide, by decide, by decide, by decide,
    (computeShares_allocation_rule (25 * 10 ^ 23) fourCandidates (by decide) (by decide)
      (by decide)).imp fun _ h => ⟨h.1, (h.2.2.1 (by decide)).1⟩⟩

/-! ## Gates and scenarios of `IncreaseStake` -/

/-- The `uint64` threshold `EpochLength-6480` when it does not wrap. -/
theorem window_threshold (L : Nat) (h1 : 6480 ≤ L) (h2 : L < 2 ^ 64) :
    (L + 2 ^ 64 - 6480) % 2 ^ 64 = L - 6480 := by
  omega

/-- Claim C3 as stated fails: with `classic_unstaked = 10 * 10 ^ 24` and four
candidates the amounts sent are not `[2, 2, 2, 4] * 10 ^ 24`. -/
theorem IncreaseStake_even_split_not_2_2_2_4 :
    calls (IncreaseStake evenChain ()).sent ≠
      [Call.increase_validator_stake "a" (2 * 10 ^ 24),
       Call.increase_validator_stake "b" (2 * 10 ^ 24),
       Call.increase_validator_stake "c" (2 * 10 ^ 24),
       Call.increase_validator_stake "d" (4 * 10 ^ 24),
       Call.confirm_stake_distribution] := by
  decide

/-- Claim C3, amended: with `classic_unstaked = 10 * 10 ^ 24` and the four
candidates `c0 .. c3`, all gates passing and every call answered `true`,
`IncreaseStake` sends `increase_validator_stake` to the four candidates in
order with `2.5 * 10 ^ 24` each, then `confirm_stake_distribution`, and
returns success. -/
theorem IncreaseStake_even_split {W : Type} (ch : Chain W) (w : W) (genesis : GenesisConfig)
    (height : Nat) (epochs : EpochHeightRegistry) (validators : List Validator) (fund : Fund)
    (c0 c1 c2 c3 : Validator)
    (hgen : (ch.view w).genesisConfig = .ok genesis)
    (hlat : (ch.view w).latestBlockHeight = .ok height)
    (hL : 6480 ≤ genesis.EpochLength) (hL64 : genesis.EpochLength < 2 ^ 64)
    (hwin : genesis.EpochLength - 6480 ≤ height % genesis.EpochLength)
    (hdist : (ch.view w).is_stake_distributed = .ok false)
    (hep : (ch.view w).get_current_epoch_height = .ok epochs)
    (heq : epochs.PoolEpochHeight = epochs.NetworkEpochHeight)
    (hreg : (ch.view w).get_validator_registry = .ok validators)
    (hcand : filterCandidates epochs.PoolEpochHeight validators = [c0, c1, c2, c3])
    (hfund : (ch.view w).get_fund = .ok fund)
    (hu : fund.ClassicUnstakedBalance = 10 * 10 ^ 24)
    (hsend : ∀ w1 c, (ch.send w1 c).1 = .successValue (.boolean true)) :
    (IncreaseStake ch w).result = .returned none ∧
      calls (IncreaseStake ch w).sent =
        [Call.increase_validator_stake c0.AccountID (25 * 10 ^ 23),
         Call.increase_validator_stake c1.AccountID (25 * 10 ^ 23),
         Call.increase_validator_stake c2.AccountID (25 * 10 ^ 23),
         Call.increase_validator_stake c3.AccountID (25 * 10 ^ 23),
         Call.confirm_stake_distribution] := by
  have hL0 : ¬ genesis.EpochLength = 0 := by omega
  have hgate : ¬ height % genesis.EpochLength < (genesis.EpochLength + 2 ^ 64 - 6480) % 2 ^ 64 := by
    rw [window_threshold _ hL hL64]
    omega
  have hshares : computeShares (10 * 10 ^ 24) [c0, c1, c2, c3] =
      some [⟨c0, 25 * 10 ^ 23⟩, ⟨c1, 25 * 10 ^ 23⟩, ⟨c2, 25 * 10 ^ 23⟩, ⟨c3, 25 * 10 ^ 23⟩] := by
    rw [computeShares_eq _ _ (by norm_num) (by simp) (by simp),
      decimalDivTruncate_floor _ _ (by norm_num) (by simp) (by simp)]
    norm_num [appendShares, addToLast]
  have hne : ¬ epochs.NetworkEpochHeight ≠ epochs.PoolEpochHeight := by
    rw [heq]; exact not_not.2 rfl
  have hu0 : ¬ (10 * 10 ^ 24 : Int) = 0 := by norm_num
  unfold IncreaseStake
  simp only [hgen, hlat, hL0, hgate, hdist, hep, hne, hreg, hcand, hfund, hu, hu0, hshares,
    sendShares, hsend, unmarshalBool, calls, if_false, Bool.false_eq_true, List.length_cons,
    List.length_nil, Bool.not_true]
  simp

/-- Claim C3, witness: the even split on the sample chain. -/
theorem IncreaseStake_even_split_witness :
    (IncreaseStake evenChain ()).result = .returned none ∧
      calls (IncreaseStake evenChain ()).sent =
        [Call.increase_validator_stake "a" (25 * 10 ^ 23),
         Call.increase_validator_stake "b" (25 * 10 ^ 23),
         Call.increase_validator_stake "c" (25 * 10 ^ 23),
         Call.increase_validator_stake "d" (25 * 10 ^ 23),
         Call.confirm_stake_distribution] :=
  IncreaseStake_even_split evenChain () { EpochLength := 43200, GenesisHeight := 0 } 40000
    { PoolEpochHeight := 100, NetworkEpochHeight := 100 } fourCandidates
    { ClassicUnstakedBalance := 10 * 10 ^ 24, ClassicStakedBalance := 0,
      InvestmentStakedBalance := 0, CommonStakedBalance := 0, CommonBalance := 0 }
    (sampleValidator "a" 0 0 100) (sampleValidator "b" 0 0 100) (sampleValidator "c" 0 0 100)
    (sampleValidator "d" 0 0 100)
    rfl rfl (by decide) (by decide) (by decide) rfl rfl rfl rfl (by decide) rfl rfl
    (fun _ _ => rfl)

/-- Claim C4 (epoch equality requirement), evaluated where the code breaks it:
inside the window, with the stake not yet distributed and
`pool_epoch != network_epoch`, `IncreaseStake` returns `errors.Wrap(nil, ...)`,
which is `nil`: the tick ends as a success, with nothing sent. -/
theorem IncreaseStake_epochs_differ_returns_nil {W : Type} (ch : Chain W) (w : W)
    (genesis : GenesisConfig) (height : Nat) (epochs : EpochHeightRegistry)
    (hgen : (ch.view w).genesisConfig = .ok genesis)
    (hlat : (ch.view w).latestBlockHeight = .ok height)
    (hL : 6480 ≤ genesis.EpochLength) (hL64 : genesis.EpochLength < 2 ^ 64)
    (hwin : genesis.EpochLength - 6480 ≤ height % genesis.EpochLength)
    (hdist : (ch.view w).is_stake_distributed = .ok false)
    (hep : (ch.view w).get_current_epoch_height = .ok epochs)
    (hne : epochs.PoolEpochHeight ≠ epochs.NetworkEpochHeight) :
    (IncreaseStake ch w).result = .returned none ∧ (IncreaseStake ch w).sent = [] := by
  have hL0 : ¬ genesis.EpochLength = 0 := by omega
  have hgate : ¬ height % genesis.EpochLength < (genesis.EpochLength + 2 ^ 64 - 6480) % 2 ^ 64 := by
    rw [window_threshold _ hL hL64]
    omega
  have hne2 : epochs.NetworkEpochHeight ≠ epochs.PoolEpochHeight := fun h => hne h.symm
  unfold IncreaseStake
  simp only [hgen, hlat, hL0, hgate, hdist, hep, hne2, errorsWrap, if_false, if_true,
    Bool.false_eq_true, ne_eq, not_false_eq_true, and_self]

/-- Claim C4, failing input: pool epoch 99, network epoch 100, height 40000 of
43200, not yet distributed. -/
theorem IncreaseStake_epochs_differ_returns_nil_witness :
    (IncreaseStake behindChain ()).result = .returned none ∧
      (IncreaseStake behindChain ()).sent = [] :=
  IncreaseStake_epochs_differ_returns_nil behindChain ()
    { EpochLength := 43200, GenesisHeight := 0 } 40000
    { PoolEpochHeight := 99, NetworkEpochHeight := 100 }
    rfl rfl (by decide) (by decide) (by decide) rfl rfl (by decide)

/-- Claim C9 (window gate of `IncreaseStake`): for every latest height `h` and
every epoch length `L > 0`, if `h mod L < L - 6480` then `IncreaseStake` sends no
transaction and returns success. -/
theorem IncreaseStake_outside_window {W : Type} (ch : Chain W) (w : W)
    (genesis : GenesisConfig) (height : Nat)
    (hgen : (ch.view w).genesisConfig = .ok genesis)
    (hlat : (ch.view w).latestBlockHeight = .ok height)
    (hL : 0 < genesis.EpochLength) (hL64 : genesis.EpochLength < 2 ^ 64)
    (hout : ((height % genesis.EpochLength : Nat) : Int) < (genesis.EpochLength : Int) - 6480) :
    (IncreaseStake ch w).result = .returned none ∧ (IncreaseStake ch w).sent = [] := by
  have hL0 : ¬ genesis.EpochLength = 0 := by omega
  have hgate : height % genesis.EpochLength < (genesis.EpochLength + 2 ^ 64 - 6480) % 2 ^ 64 := by
    rw [window_threshold _ (by omega) hL64]
    omega
  unfold IncreaseStake
  simp only [hgen, hlat, hL0, hgate, if_false, if_true, and_self]

/-- Claim C9, witness: `h = 1000`, `L = 43200`, threshold `36720`. -/
theorem IncreaseStake_outside_window_witness :
    ((1000 % 43200 : Nat) : Int) < (43200 : Int) - 6480 ∧
      (IncreaseStake earlyChain ()).result = .returned none ∧
      (IncreaseStake earlyChain ()).sent = [] :=
  ⟨by decide, IncreaseStake_outside_window earlyChain ()
    { EpochLength := 43200, GenesisHeight := 0 } 1000 rfl rfl (by decide) (by decide)
    (by decide)⟩

/-! ## Candidates of `IncreaseStake` -/

theorem mem_filterCandidates (p : Nat) (vs : List Validator) (v : Validator) :
    v ∈ filterCandidates p vs ↔
      v ∈ vs ∧ v.IsOnlyForInvestment = false ∧
        (v.LastClassicStakeIncreasingEpochHeight = none ∨
          ∃ e, v.LastClassicStakeIncreasingEpochHeight = some e ∧ e < p) := by
  unfold filterCandidates
  rw [List.mem_filter]
  cases hL : v.LastClassicStakeIncreasingEpochHeight <;> cases hI : v.IsOnlyForInvestment <;> simp

theorem appendShares_validator_mem (fv : List Validator) (part : Int) :
    ∀ n shares, appendShares fv part n = some shares → ∀ s ∈ shares, s.validator ∈ fv
  | 0, shares, h => by
    simp only [appendShares, Option.some.injEq] at h
    subst h
    intro s hs
    cases hs
  | n + 1, shares, h => by
    rw [appendShares] at h
    cases h1 : appendShares fv part n with
    | none => simp [h1] at h
    | some prev =>
      cases h2 : fv[n]? with
      | none => simp [h1, h2] at h
      | some v =>
        simp only [h1, h2, Option.some.injEq] at h
        subst h
        intro s hs
        rcases List.mem_append.1 hs with hs | hs
        · exact appendShares_validator_mem fv part n prev h1 s hs
        · simp only [List.mem_singleton] at hs
          subst hs
          exact List.getElem?_mem h2

theorem addToLast_validator_mem (shares r : List validatorShare) (m : Int)
    (h : addToLast shares m = some r) : ∀ s ∈ r, ∃ s1 ∈ shares, s1.validator = s.validator := by
  unfold addToLast at h
  cases hl : shares.getLast? with
  | none => simp [hl] at h
  | some last =>
    simp only [hl, Option.some.injEq] at h
    subst h
    have hlast : last ∈ shares := List.mem_of_getLast?_eq_some hl
    intro s hs
    rcases List.mem_append.1 hs with hs | hs
    · exact ⟨s, List.mem_of_mem_dropLast hs, rfl⟩
    · simp only [List.mem_singleton] at hs
      subst hs
      exact ⟨last, hlast, rfl⟩

theorem computeShares_validator_mem (u : Int) (fv : List Validator) (shares : List validatorShare)
    (h : computeShares u fv = some shares) : ∀ s ∈ shares, s.validator ∈ fv := by
  unfold computeShares at h
  simp only at h
  split at h
  · split at h
    · exact absurd h (by simp)
    · rename_i prev hp
      intro s hs
      obtain ⟨s1, hs1, he⟩ := addToLast_validator_mem _ _ _ h s hs
      rw [← he]
      exact appendShares_validator_mem _ _ _ _ hp s1 hs1
  · split at h
    · exact absurd h (by simp)
    · rename_i prev hp
      intro s hs
      obtain ⟨s1, hs1, he⟩ := addToLast_validator_mem _ _ _ h s hs
      rw [← he]
      exact appendShares_validator_mem _ _ _ _ hp s1 hs1

theorem sendShares_sent_mem {W : Type} (ch : Chain W) :
    ∀ (shares : List validatorShare) (w : W), ∀ x ∈ (sendShares ch shares w).sent,
      ∃ s ∈ shares, x.1 = Call.increase_validator_stake s.validator.AccountID s.stake
  | [], w => by simp [sendShares]
  | share :: rest, w => by
    intro x hx
    rw [sendShares] at hx
    simp only at hx
    split at hx
    · simp only [List.mem_singleton] at hx
      exact ⟨share, List.mem_cons_self _ _, by rw [hx]⟩
    · simp only [List.mem_singleton] at hx
      exact ⟨share, List.mem_cons_self _ _, by rw [hx]⟩
    · split at hx
      · simp only [List.mem_singleton] at hx
        exact ⟨share, List.mem_cons_self _ _, by rw [hx]⟩
      · split at hx
        · simp only [List.mem_singleton] at hx
          exact ⟨share, List.mem_cons_self _ _, by rw [hx]⟩
        · rcases List.mem_cons.1 hx with hx | hx
          · exact ⟨share, List.mem_cons_self _ _, by rw [hx]⟩
          · obtain ⟨s, hs, he⟩ := sendShares_sent_mem ch rest _ x hx
            exact ⟨s, List.mem_cons_of_mem _ hs, he⟩

theorem IncreaseStake_sent_cases {W : Type} (ch : Chain W) (w : W) :
    IncreaseSent ch w (IncreaseStake ch w).sent := by
  unfold IncreaseStake
  dsimp only
  repeat' split
  all_goals first
    | exact Or.inl (by with_reducible rfl)
    | exact Or.inr ⟨_, _, _, _, ‹_›, ‹_›, ‹_›, ‹_›, Or.inl (by with_reducible rfl)⟩
    | exact Or.inr ⟨_, _, _, _, ‹_›, ‹_›, ‹_›, ‹_›, Or.inr ⟨_, by with_reducible rfl⟩⟩

/-- Claim C10 (targets of `IncreaseStake`): every `increase_validator_stake` sent
by `IncreaseStake` targets a validator of the registry with
`is_only_for_investment == false` whose `last_classic_increase_epoch` is null or
less than `pool_epoch`; in particular none targets a validator that is only for
investment. -/
theorem IncreaseStake_targets_candidates {W : Type} (ch : Chain W) (w : W) (id : String)
    (amount : Int) (out : SendOutcome)
    (hsent : (Call.increase_validator_stake id amount, out) ∈ (IncreaseStake ch w).sent) :
    ∃ epochs validators,
      (ch.view w).get_current_epoch_height = .ok epochs ∧
      (ch.view w).get_validator_registry = .ok validators ∧
      ∃ v ∈ validators, v.AccountID = id ∧ v.IsOnlyForInvestment = false ∧
        (v.LastClassicStakeIncreasingEpochHeight = none ∨
          ∃ e, v.LastClassicStakeIncreasingEpochHeight = some e ∧ e < epochs.PoolEpochHeight) := by
  rcases IncreaseStake_sent_cases ch w with
    h | ⟨epochs, validators, fund, shares, hep, hreg, _, hsh, h⟩
  · rw [h] at hsent
    cases hsent
  · have hin : (Call.increase_validator_stake id amount, out) ∈ (sendShares ch shares w).sent := by
      rcases h with h | ⟨o, h⟩
      · rw [h] at hsent
        exact hsent
      · rw [h] at hsent
        rcases List.mem_append.1 hsent with h1 | h1
        · exact h1
        · simp at h1
    obtain ⟨s, hs, he⟩ := sendShares_sent_mem ch shares w _ hin
    have hv := computeShares_validator_mem _ _ _ hsh s hs
    obtain ⟨hv1, hv2, hv3⟩ := (mem_filterCandidates _ _ _).1 hv
    simp only [Call.increase_validator_stake.injEq] at he
    exact ⟨epochs, validators, hep, hreg, s.validator, hv1, he.1.symm, hv2, hv3⟩

/-- Claim C10, witness: the second `increase_validator_stake` of the dust
collapse tick, sent to candidate `b`. -/
theorem IncreaseStake_targets_candidates_witness :
    (Call.increase_validator_stake "b" (1125 * 10 ^ 21),
        SendOutcome.successValue (.boolean true)) ∈ (IncreaseStake dustChain ()).sent ∧
      ∃ epochs validators,
        (dustChain.view ()).get_current_epoch_height = .ok epochs ∧
        (dustChain.view ()).get_validator_registry = .ok validators ∧
        ∃ v ∈ validators, v.AccountID = "b" ∧ v.IsOnlyForInvestment = false ∧
          (v.LastClassicStakeIncreasingEpochHeight = none ∨
            ∃ e, v.LastClassicStakeIncreasingEpochHeight = some e ∧
              e < epochs.PoolEpochHeight) :=
  ⟨by decide, IncreaseStake_targets_candidates dustChain () "b" (1125 * 10 ^ 21)
    (.successValue (.boolean true)) (by decide)⟩

/-! ## `PoolUpdate` when the pool is current -/

theorem takeUnstakedBalance_not_yet {W : Type} (ch : Chain W) (w : W)
    (epochs : EpochHeightRegistry)
    (hep : (ch.view w).get_current_epoch_height = .ok epochs)
    (hgate : epochs.NetworkEpochHeight % 4 ≠ 0 ∨
      epochs.PoolEpochHeight ≥ epochs.NetworkEpochHeight) :
    takeUnstakedBalance ch w = { err := none, sent := [], world := w } := by
  unfold takeUnstakedBalance
  simp only [hep, hgate, if_true]

/-- Claim C6 (`PoolUpdate` no-op): when the epoch view gives
`pool_epoch == network_epoch`, whatever the registry, the unstaked balances and
the withdrawal requests are, `PoolUpdate` sends no transaction and returns
success. -/
theorem PoolUpdate_noop {W : Type} (newFromString : String → Option Int) (ch : Chain W) (w : W)
    (epochs : EpochHeightRegistry)
    (hep : (ch.view w).get_current_epoch_height = .ok epochs)
    (heq : epochs.PoolEpochHeight = epochs.NetworkEpochHeight) :
    (PoolUpdate newFromString ch w).result = .returned none ∧
      (PoolUpdate newFromString ch w).sent = [] := by
  have htake := takeUnstakedBalance_not_yet ch w epochs hep (Or.inr (by omega))
  unfold PoolUpdate
  simp only [htake, hep, heq, if_true, and_self]

/-- Claim C6, witness: pool and network both at epoch 100 (a multiple of 4),
with an unstaked balance to reclaim and a pending withdrawal. -/
theorem PoolUpdate_noop_witness :
    (PoolUpdate sampleNewFromString currentChain ()).result = .returned none ∧
      (PoolUpdate sampleNewFromString currentChain ()).sent = [] :=
  PoolUpdate_noop sampleNewFromString currentChain ()
    { PoolEpochHeight := 100, NetworkEpochHeight := 100 } rfl rfl

/-! ## Withdrawal decrease -/

theorem mem_filterClassicStaked (vs : List Validator) (v : Validator) :
    v ∈ filterClassicStaked vs ↔
      v ∈ vs ∧ v.IsOnlyForInvestment = false ∧ 0 < v.ClassicStakedBalance := by
  unfold filterClassicStaked
  rw [List.mem_filter]
  cases hI : v.IsOnlyForInvestment <;> simp

theorem classicDecreaseLoop_sent_mem {W : Type} (ch : Chain W) (E : Nat) :
    ∀ (vs : List Validator) (nearAmount : Int) (w : W),
      ∀ x ∈ (classicDecreaseLoop ch E vs nearAmount w).sent,
        ∃ v ∈ vs, ∃ amount,
          x.1 = Call.requested_decrease_validator_stake v.AccountID amount
            stakeDecreasingType.Classic ∧ amount ≤ v.ClassicStakedBalance
  | [], _, w => by simp [classicDecreaseLoop]
  | validator :: rest, nearAmount, w => by
    intro x hx
    rw [classicDecreaseLoop] at hx
    dsimp only at hx
    split at hx
    · cases hx
    · split at hx
      · split at hx
        · simp only [List.mem_singleton] at hx
          exact ⟨validator, List.mem_cons_self _ _, _, by rw [hx], le_refl _⟩
        · rcases List.mem_cons.1 hx with hx | hx
          · exact ⟨validator, List.mem_cons_self _ _, _, by rw [hx], le_refl _⟩
          · obtain ⟨v, hv, a, h1, h2⟩ := classicDecreaseLoop_sent_mem ch E rest _ _ x hx
            exact ⟨v, List.mem_cons_of_mem _ hv, a, h1, h2⟩
      · rename_i hlt
        have hle : nearAmount ≤ validator.ClassicStakedBalance := by omega
        split at hx
        · simp only [List.mem_singleton] at hx
          exact ⟨validator, List.mem_cons_self _ _, _, by rw [hx], hle⟩
        · rcases List.mem_cons.1 hx with hx | hx
          · exact ⟨validator, List.mem_cons_self _ _, _, by rw [hx], hle⟩
          · obtain ⟨v, hv, a, h1, h2⟩ := classicDecreaseLoop_sent_mem ch E rest _ _ x hx
            exact ⟨v, List.mem_cons_of_mem _ hv, a, h1, h2⟩

theorem investmentDecreaseLoop_sent_mem {W : Type} (nfs : String → Option Int) (ch : Chain W)
    (E : Nat) :
    ∀ (entries : List (List JsonField)) (w : W),
      ∀ x ∈ (investmentDecreaseLoop nfs ch E entries w).sent,
        ∃ id amount, x.1 = Call.requested_decrease_validator_stake id amount
          stakeDecreasingType.Investment
  | [], w => by simp [investmentDecreaseLoop]
  | v :: rest, w => by
    intro x hx
    unfold investmentDecreaseLoop at hx
    dsimp only at hx
    repeat' split at hx
    all_goals first
      | exact absurd hx (List.not_mem_nil _)
      | (simp only [List.mem_singleton] at hx; exact ⟨_, _, by rw [hx]⟩)
      | (rcases List.mem_cons.1 hx with hx | hx
         · exact ⟨_, _, by rw [hx]⟩
         · exact investmentDecreaseLoop_sent_mem nfs ch E rest _ x hx)

/-! ## Validation of `CallbackResult` responses -/

theorem sendCallback_outcome {W : Type} (ch : Chain W) (w : W) (call : Call) (E : Nat)
    (m1 m2 id : String) :
    (sendCallback ch w call E m1 m2 id).2 = ch.send w call := by
  unfold sendCallback
  dsimp only
  repeat' split
  all_goals rfl

theorem sendCallback_accepted {W : Type} (ch : Chain W) (w : W) (call : Call) (E : Nat)
    (m1 m2 id : String) (h : (sendCallback ch w call E m1 m2 id).1 = none) :
    accepted E (sendCallback ch w call E m1 m2 id).2.1 := by
  rw [sendCallback_outcome]
  unfold sendCallback at h
  dsimp only at h
  split at h
  · simp [errorsWrap] at h
  · simp [errorsNew] at h
  · rename_i body hb
    split at h
    · simp [errorsWrap] at h
    · rename_i resp hr
      split at h
      · simp [errorsNew] at h
      · split at h
        · simp [errorsNew] at h
        · rename_i h1 h2
          cases body with
          | callbackResult r =>
            simp only [unmarshalCallbackResult, Except.ok.injEq] at hr
            subst hr
            refine ⟨r, hb, ?_, ?_⟩
            · simpa using h1
            · simpa using h2
          | boolean b => simp [unmarshalCallbackResult] at hr
          | malformed => simp [unmarshalCallbackResult] at hr

theorem Checked_nil (E : Nat) (err : GoError) : Checked E err [] := by
  refine ⟨?_, ?_⟩
  · intro pre x post h
    simp at h
  · intro _ x hx
    cases hx

theorem Checked_single (E : Nat) (e : String) (x : Call × SendOutcome) :
    Checked E (some e) [x] := by
  refine ⟨?_, ?_⟩
  · intro pre y post h hne
    rcases pre with _ | ⟨p, pre⟩
    · simp only [List.nil_append, List.cons.injEq] at h
      exact absurd h.2.symm hne
    · simp at h
  · intro h
    cases h

theorem Checked_cons (E : Nat) (err : GoError) (x : Call × SendOutcome) (t : Trace)
    (hx : accepted E x.2) (ht : Checked E err t) : Checked E err (x :: t) := by
  refine ⟨?_, ?_⟩
  · intro pre y post h hne
    rcases pre with _ | ⟨p, pre⟩
    · simp only [List.nil_append, List.cons.injEq] at h
      rw [← h.1]
      exact hx
    · simp only [List.cons_append, List.cons.injEq] at h
      exact ht.1 pre y post h.2 hne
  · intro he y hy
    rcases List.mem_cons.1 hy with hy | hy
    · rw [hy]
      exact hx
    · exact ht.2 he y hy

theorem Checked_append (E : Nat) (err : GoError) (t1 t2 : Trace)
    (h1 : Checked E none t1) (h2 : Checked E err t2) : Checked E err (t1 ++ t2) := by
  induction t1 with
  | nil => simpa using h2
  | cons x t ih =>
    have hx : accepted E x.2 := h1.2 rfl x (List.mem_cons_self _ _)
    have ht : Checked E none t :=
      ⟨fun pre y post h hne => h1.2 rfl y (by rw [h]; simp),
        fun _ y hy => h1.2 rfl y (List.mem_cons_of_mem _ hy)⟩
    exact Checked_cons E err x (t ++ t2) hx (ih ht)

theorem takeUnstakedBalanceLoop_checked {W : Type} (ch : Chain W) (E : Nat) :
    ∀ (vs : List Validator) (w : W),
      Checked E (takeUnstakedBalanceLoop ch E vs w).err (takeUnstakedBalanceLoop ch E vs w).sent
  | [], w => Checked_nil E _
  | validator :: rest, w => by
    rw [takeUnstakedBalanceLoop]
    dsimp only
    split
    · exact takeUnstakedBalanceLoop_checked ch E rest w
    · split
      · split
        · exact Checked_single E _ _
        · rename_i h
          exact Checked_cons E _ _ _ (sendCallback_accepted _ _ _ _ _ _ _ h)
            (takeUnstakedBalanceLoop_checked ch E rest _)
      · exact takeUnstakedBalanceLoop_checked ch E rest w

theorem updateValidatorLoop_checked {W : Type} (ch : Chain W) (E : Nat) :
    ∀ (vs : List Validator) (w : W),
      Checked E (updateValidatorLoop ch E vs w).err (updateValidatorLoop ch E vs w).sent
  | [], w => Checked_nil E _
  | v :: rest, w => by
    rw [updateValidatorLoop]
    dsimp only
    split
    · exact updateValidatorLoop_checked ch E rest w
    · split
      · exact Checked_single E _ _
      · rename_i h
        exact Checked_cons E _ _ _ (sendCallback_accepted _ _ _ _ _ _ _ h)
          (updateValidatorLoop_checked ch E rest _)

theorem classicDecreaseLoop_checked {W : Type} (ch : Chain W) (E : Nat) :
    ∀ (vs : List Validator) (nearAmount : Int) (w : W),
      Checked E (classicDecreaseLoop ch E vs nearAmount w).err
        (classicDecreaseLoop ch E vs nearAmount w).sent
  | [], _, w => Checked_nil E _
  | validator :: rest, nearAmount, w => by
    rw [classicDecreaseLoop]
    dsimp only
    split
    · exact Checked_nil E _
    · split
      · split
        · exact Checked_single E _ _
        · rename_i h
          exact Checked_cons E _ _ _ (sendCallback_accepted _ _ _ _ _ _ _ h)
            (classicDecreaseLoop_checked ch E rest _ _)
      · split
        · exact Checked_single E _ _
        · rename_i h
          exact Checked_cons E _ _ _ (sendCallback_accepted _ _ _ _ _ _ _ h)
            (classicDecreaseLoop_checked ch E rest _ _)

theorem investmentDecreaseLoop_checked {W : Type} (nfs : String → Option Int) (ch : Chain W)
    (E : Nat) :
    ∀ (entries : List (List JsonField)) (w : W),
      Checked E (investmentDecreaseLoop nfs ch E entries w).err
        (investmentDecreaseLoop nfs ch E entries w).sent
  | [], w => Checked_nil E _
  | v :: rest, w => by
    unfold investmentDecreaseLoop
    dsimp only
    repeat' split
    all_goals first
      | exact Checked_nil E _
      | exact Checked_single E _ _
      | exact Checked_cons E _ _ _ (sendCallback_accepted _ _ _ _ _ _ _ ‹_›)
          (investmentDecreaseLoop_checked nfs ch E rest _)

theorem takeUnstakedBalanceLoop_sent_mem {W : Type} (ch : Chain W) (E : Nat) :
    ∀ (vs : List Validator) (w : W), ∀ x ∈ (takeUnstakedBalanceLoop ch E vs w).sent,
      ∃ v ∈ vs, x.1 = Call.take_unstaked_balance v.AccountID ∧
        v.LastUpdateEpochHeight ≠ E ∧ 0 < v.UnstakedBalance
  | [], w => by simp [takeUnstakedBalanceLoop]
  | validator :: rest, w => by
    intro x hx
    rw [takeUnstakedBalanceLoop] at hx
    dsimp only at hx
    split at hx
    · obtain ⟨v, hv, h⟩ := takeUnstakedBalanceLoop_sent_mem ch E rest _ x hx
      exact ⟨v, List.mem_cons_of_mem _ hv, h⟩
    · rename_i hne
      split at hx
      · rename_i hpos
        split at hx
        · simp only [List.mem_singleton] at hx
          exact ⟨validator, List.mem_cons_self _ _, by rw [hx], hne, hpos⟩
        · rcases List.mem_cons.1 hx with hx | hx
          · exact ⟨validator, List.mem_cons_self _ _, by rw [hx], hne, hpos⟩
          · obtain ⟨v, hv, h⟩ := takeUnstakedBalanceLoop_sent_mem ch E rest _ x hx
            exact ⟨v, List.mem_cons_of_mem _ hv, h⟩
      · obtain ⟨v, hv, h⟩ := takeUnstakedBalanceLoop_sent_mem ch E rest _ x hx
        exact ⟨v, List.mem_cons_of_mem _ hv, h⟩

theorem updateValidatorLoop_sent_mem {W : Type} (ch : Chain W) (E : Nat) :
    ∀ (vs : List Validator) (w : W), ∀ x ∈ (updateValidatorLoop ch E vs w).sent,
      ∃ v ∈ vs, x.1 = Call.update_validator v.AccountID ∧ v.LastUpdateEpochHeight ≠ E
  | [], w => by simp [updateValidatorLoop]
  | validator :: rest, w => by
    intro x hx
    rw [updateValidatorLoop] at hx
    dsimp only at hx
    split at hx
    · obtain ⟨v, hv, h⟩ := updateValidatorLoop_sent_mem ch E rest _ x hx
      exact ⟨v, List.mem_cons_of_mem _ hv, h⟩
    · rename_i hne
      split at hx
      · simp only [List.mem_singleton] at hx
        exact ⟨validator, List.mem_cons_self _ _, by rw [hx], hne⟩
      · rcases List.mem_cons.1 hx with hx | hx
        · exact ⟨validator, List.mem_cons_self _ _, by rw [hx], hne⟩
        · obtain ⟨v, hv, h⟩ := updateValidatorLoop_sent_mem ch E rest _ x hx
          exact ⟨v, List.mem_cons_of_mem _ hv, h⟩

/-- Claim C8 (classic withdrawal bound): every `requested_decrease_validator_stake`
call with `stake_decreasing_type` Classic sent by `requestedDecreaseValidatorStake`
targets a validator of the registry that is not only for investment and has a
positive `classic_staked`, with a `near_amount` that does not exceed that
`classic_staked`; this holds for every withdrawal request and every response. -/
theorem requestedDecrease_classic_bound {W : Type} (newFromString : String → Option Int)
    (ch : Chain W) (w : W) (id : String) (amount : Int) (out : SendOutcome)
    (hsent : (Call.requested_decrease_validator_stake id amount stakeDecreasingType.Classic, out) ∈
      (requestedDecreaseValidatorStake newFromString ch w).sent) :
    ∃ validators, (ch.view w).get_validator_registry = .ok validators ∧
      ∃ v ∈ validators, v.AccountID = id ∧ v.IsOnlyForInvestment = false ∧
        0 < v.ClassicStakedBalance ∧ amount ≤ v.ClassicStakedBalance := by
  have key : ∀ (E : Nat) (need : Int) (validators : List Validator) (w1 : W),
      (Call.requested_decrease_validator_stake id amount stakeDecreasingType.Classic, out) ∈
        (classicDecreaseLoop ch E (filterClassicStaked validators) need w1).sent →
      ∃ v ∈ validators, v.AccountID = id ∧ v.IsOnlyForInvestment = false ∧
        0 < v.ClassicStakedBalance ∧ amount ≤ v.ClassicStakedBalance := by
    intro E need validators w1 h
    obtain ⟨v, hv, a, h1, h2⟩ := classicDecreaseLoop_sent_mem ch E _ _ _ _ h
    obtain ⟨hv1, hv2, hv3⟩ := (mem_filterClassicStaked _ _).1 hv
    simp only [Call.requested_decrease_validator_stake.injEq] at h1
    exact ⟨v, hv1, h1.1.symm, hv2, hv3, by rw [h1.2.1]; exact h2⟩
  unfold requestedDecreaseValidatorStake at hsent
  dsimp only at hsent
  repeat' split at hsent
  all_goals first
    | exact absurd hsent (List.not_mem_nil _)
    | exact ⟨_, ‹_›, key _ _ _ _ hsent⟩
    | (rcases List.mem_append.1 hsent with h | h
       · exact ⟨_, ‹_›, key _ _ _ _ h⟩
       · obtain ⟨i, a, he⟩ := investmentDecreaseLoop_sent_mem _ _ _ _ _ _ h
         simp at he)

theorem requestedDecrease_checked {W : Type} (nfs : String → Option Int) (ch : Chain W) (w : W)
    (ep : EpochHeightRegistry) (hep : (ch.view w).get_current_epoch_height = .ok ep) :
    Checked ep.NetworkEpochHeight (requestedDecreaseValidatorStake nfs ch w).err
      (requestedDecreaseValidatorStake nfs ch w).sent := by
  unfold requestedDecreaseValidatorStake
  simp only [hep]
  repeat' split
  all_goals first
    | exact Checked_nil _ _
    | (rename_i e h; rw [← h]; exact classicDecreaseLoop_checked ch _ _ _ _)
    | (rename_i h
       exact Checked_append _ _ _ _ (by rw [← h]; exact classicDecreaseLoop_checked ch _ _ _ _)
         (investmentDecreaseLoop_checked nfs ch _ _ _))

theorem takeUnstakedBalance_checked {W : Type} (ch : Chain W) (w : W)
    (ep : EpochHeightRegistry) (hep : (ch.view w).get_current_epoch_height = .ok ep) :
    Checked ep.NetworkEpochHeight (takeUnstakedBalance ch w).err (takeUnstakedBalance ch w).sent := by
  unfold takeUnstakedBalance
  simp only [hep]
  repeat' split
  all_goals first
    | exact Checked_nil _ _
    | exact takeUnstakedBalanceLoop_checked ch _ _ _

theorem requestedDecrease_no_update {W : Type} (nfs : String → Option Int) (ch : Chain W) (w : W) :
    ∀ x ∈ (requestedDecreaseValidatorStake nfs ch w).sent, x.1 ≠ Call.update := by
  intro x hx
  have hc : ∀ E vs need w1, x ∈ (classicDecreaseLoop ch E vs need w1).sent → x.1 ≠ Call.update := by
    intro E vs need w1 h
    obtain ⟨v, _, a, h1, _⟩ := classicDecreaseLoop_sent_mem ch E _ _ _ _ h
    rw [h1]
    simp
  have hi : ∀ E en w1, x ∈ (investmentDecreaseLoop nfs ch E en w1).sent → x.1 ≠ Call.update := by
    intro E en w1 h
    obtain ⟨i, a, h1⟩ := investmentDecreaseLoop_sent_mem nfs ch E _ _ _ h
    rw [h1]
    simp
  unfold requestedDecreaseValidatorStake at hx
  dsimp only at hx
  repeat' split at hx
  all_goals first
    | exact absurd hx (List.not_mem_nil _)
    | exact hc _ _ _ _ hx
    | (rcases List.mem_append.1 hx with h | h
       · exact hc _ _ _ _ h
       · exact hi _ _ _ h)

theorem takeUnstakedBalance_no_update {W : Type} (ch : Chain W) (w : W) :
    ∀ x ∈ (takeUnstakedBalance ch w).sent, x.1 ≠ Call.update := by
  intro x hx
  unfold takeUnstakedBalance at hx
  repeat' split at hx
  all_goals first
    | exact absurd hx (List.not_mem_nil _)
    | (obtain ⟨v, _, h1, _⟩ := takeUnstakedBalanceLoop_sent_mem ch _ _ _ _ hx
       rw [h1]
       simp)

theorem updateValidatorLoop_no_update {W : Type} (ch : Chain W) (E : Nat) (vs : List Validator)
    (w : W) : ∀ x ∈ (updateValidatorLoop ch E vs w).sent, x.1 ≠ Call.update := by
  intro x hx
  obtain ⟨v, _, h1, _⟩ := updateValidatorLoop_sent_mem ch _ _ _ _ hx
  rw [h1]
  simp

/-- Claim C8, witness: the classic decrease of `3 * 10 ^ 24` on validator `A`,
whose `classic_staked` is `10 * 10 ^ 24`. -/
theorem requestedDecrease_classic_bound_witness :
    (Call.requested_decrease_validator_stake "A" (3 * 10 ^ 24) stakeDecreasingType.Classic,
        okAt100) ∈ (requestedDecreaseValidatorStake sampleNewFromString staleChain ()).sent ∧
      ∃ validators, (staleChain.view ()).get_validator_registry = .ok validators ∧
        ∃ v ∈ validators, v.AccountID = "A" ∧ v.IsOnlyForInvestment = false ∧
          0 < v.ClassicStakedBalance ∧ (3 * 10 ^ 24 : Int) ≤ v.ClassicStakedBalance :=
  ⟨by decide, requestedDecrease_classic_bound sampleNewFromString staleChain () "A"
    (3 * 10 ^ 24) okAt100 (by decide)⟩

/-! ## `PoolUpdate` when every call is accepted -/

theorem sendCallback_ok {W : Type} (ch : Chain W) (E : Nat)
    (hsend : ∀ w1 c, (ch.send w1 c).1 =
      .successValue (.callbackResult { IsSuccess := true, NetworkEpochHeight := E }))
    (w : W) (call : Call) (m1 m2 id : String) :
    (sendCallback ch w call E m1 m2 id).1 = none := by
  unfold sendCallback
  simp [hsend, unmarshalCallbackResult]

theorem classicWalk_zero (vs : List Validator) : classicWalk 0 vs = [] := by
  cases vs <;> simp [classicWalk]

theorem takeUnstakedBalanceLoop_ok {W : Type} (ch : Chain W) (E : Nat)
    (hsend : ∀ w1 c, (ch.send w1 c).1 =
      .successValue (.callbackResult { IsSuccess := true, NetworkEpochHeight := E })) :
    ∀ (vs : List Validator) (w : W),
      (takeUnstakedBalanceLoop ch E vs w).err = none ∧
        calls (takeUnstakedBalanceLoop ch E vs w).sent =
          (vs.filter fun v => decide (v.LastUpdateEpochHeight ≠ E) &&
            decide (v.UnstakedBalance > 0)).map fun v => Call.take_unstaked_balance v.AccountID
  | [], w => by simp [takeUnstakedBalanceLoop, calls]
  | validator :: rest, w => by
    rw [takeUnstakedBalanceLoop]
    dsimp only
    by_cases h1 : validator.LastUpdateEpochHeight = E
    · rw [if_pos h1]
      have ih := takeUnstakedBalanceLoop_ok ch E hsend rest w
      refine ⟨ih.1, ?_⟩
      rw [ih.2, List.filter_cons_of_neg (by simp [h1])]
    · rw [if_neg h1]
      by_cases h2 : validator.UnstakedBalance > 0
      · rw [if_pos h2]
        simp only [sendCallback_ok ch E hsend]
        have ih := takeUnstakedBalanceLoop_ok ch E hsend rest
          (sendCallback ch w (Call.take_unstaked_balance validator.AccountID) E
            "TransactionSendAwait(take_unstaked_balance)" "decrease validator stake: "
            validator.AccountID).2.2
        refine ⟨ih.1, ?_⟩
        rw [List.filter_cons_of_pos (by simp [h1, h2])]
        simp only [calls, List.map_cons] at ih ⊢
        rw [ih.2]
      · rw [if_neg h2]
        have ih := takeUnstakedBalanceLoop_ok ch E hsend rest w
        refine ⟨ih.1, ?_⟩
        rw [ih.2, List.filter_cons_of_neg (by simp [h2])]

theorem updateValidatorLoop_ok {W : Type} (ch : Chain W) (E : Nat)
    (hsend : ∀ w1 c, (ch.send w1 c).1 =
      .successValue (.callbackResult { IsSuccess := true, NetworkEpochHeight := E })) :
    ∀ (vs : List Validator) (w : W),
      (updateValidatorLoop ch E vs w).err = none ∧
        calls (updateValidatorLoop ch E vs w).sent =
          (vs.filter fun v => decide (v.LastUpdateEpochHeight ≠ E)).map
            fun v => Call.update_validator v.AccountID
  | [], w => by simp [updateValidatorLoop, calls]
  | v :: rest, w => by
    rw [updateValidatorLoop]
    dsimp only
    by_cases h1 : v.LastUpdateEpochHeight = E
    · rw [if_pos h1]
      have ih := updateValidatorLoop_ok ch E hsend rest w
      refine ⟨ih.1, ?_⟩
      rw [ih.2, List.filter_cons_of_neg (by simp [h1])]
    · rw [if_neg h1]
      simp only [sendCallback_ok ch E hsend]
      have ih := updateValidatorLoop_ok ch E hsend rest
        (sendCallback ch w (Call.update_validator v.AccountID) E
          ("TransactionSendAwait[validator:" ++ v.AccountID ++ "]") "" v.AccountID).2.2
      refine ⟨ih.1, ?_⟩
      rw [List.filter_cons_of_pos (by simp [h1])]
      simp only [calls, List.map_cons] at ih ⊢
      rw [ih.2]

theorem classicDecreaseLoop_ok {W : Type} (ch : Chain W) (E : Nat)
    (hsend : ∀ w1 c, (ch.send w1 c).1 =
      .successValue (.callbackResult { IsSuccess := true, NetworkEpochHeight := E })) :
    ∀ (vs : List Validator) (nearAmount : Int) (w : W),
      (classicDecreaseLoop ch E vs nearAmount w).err = none ∧
        calls (classicDecreaseLoop ch E vs nearAmount w).sent = classicWalk nearAmount vs
  | [], _, w => by simp [classicDecreaseLoop, calls, classicWalk]
  | validator :: rest, nearAmount, w => by
    rw [classicDecreaseLoop, classicWalk]
    dsimp only
    by_cases h0 : nearAmount = 0
    · rw [if_pos h0, if_pos h0]
      exact ⟨rfl, rfl⟩
    · rw [if_neg h0, if_neg h0]
      by_cases h1 : nearAmount ≥ validator.ClassicStakedBalance
      · rw [if_pos h1, if_pos h1]
        simp only [sendCallback_ok ch E hsend]
        have ih := classicDecreaseLoop_ok ch E hsend rest
          (nearAmount - validator.ClassicStakedBalance)
          (sendCallback ch w (Call.requested_decrease_validator_stake validator.AccountID
            validator.ClassicStakedBalance stakeDecreasingType.Classic) E
            "TransactionSendAwait(requested_decrease_validator_stake)"
            "requested decrease validator stake: " validator.AccountID).2.2
        refine ⟨ih.1, ?_⟩
        simp only [calls, List.map_cons] at ih ⊢
        rw [ih.2]
      · rw [if_neg h1, if_neg h1]
        simp only [sendCallback_ok ch E hsend]
        have ih := classicDecreaseLoop_ok ch E hsend rest 0
          (sendCallback ch w (Call.requested_decrease_validator_stake validator.AccountID
            nearAmount stakeDecreasingType.Classic) E
            "TransactionSendAwait(requested_decrease_validator_stake)"
            "requested decrease validator stake: " validator.AccountID).2.2
        refine ⟨ih.1, ?_⟩
        simp only [calls, List.map_cons] at ih ⊢
        rw [ih.2, classicWalk_zero]

theorem investmentDecreaseLoop_ok {W : Type} (nfs : String → Option Int) (ch : Chain W) (E : Nat)
    (hsend : ∀ w1 c, (ch.send w1 c).1 =
      .successValue (.callbackResult { IsSuccess := true, NetworkEpochHeight := E })) :
    ∀ (investment : List (String × String × Int)) (w : W),
      (∀ p ∈ investment, nfs p.2.1 = some p.2.2) →
      (investmentDecreaseLoop nfs ch E
          (investment.map fun p => [JsonField.str p.1, JsonField.str p.2.1]) w).err = none ∧
        calls (investmentDecreaseLoop nfs ch E
          (investment.map fun p => [JsonField.str p.1, JsonField.str p.2.1]) w).sent =
          investment.map fun p =>
            Call.requested_decrease_validator_stake p.1 p.2.2 stakeDecreasingType.Investment
  | [], w, _ => by simp [investmentDecreaseLoop, calls]
  | p :: rest, w, hp => by
    have h1 : nfs p.2.1 = some p.2.2 := hp p (List.mem_cons_self _ _)
    rw [List.map_cons, investmentDecreaseLoop]
    simp only [h1, sendCallback_ok ch E hsend]
    have ih := investmentDecreaseLoop_ok nfs ch E hsend rest
      (sendCallback ch w (Call.requested_decrease_validator_stake p.1 p.2.2
        stakeDecreasingType.Investment) E
        "TransactionSendAwait(requested_decrease_validator_stake)"
        "requested decrease validator stake: " p.1).2.2
      (fun q hq => hp q (List.mem_cons_of_mem _ hq))
    refine ⟨ih.1, ?_⟩
    simp only [calls, List.map_cons] at ih ⊢
    rw [ih.2]

theorem calls_append (a b : Trace) : calls (a ++ b) = calls a ++ calls b := by
  simp [calls]

theorem takeUnstakedBalance_ok {W : Type} (ch : Chain W) (ep : EpochHeightRegistry)
    (validators : List Validator)
    (hep : ∀ w1, (ch.view w1).get_current_epoch_height = .ok ep)
    (hreg : ∀ w1, (ch.view w1).get_validator_registry = .ok validators)
    (hlt : ep.PoolEpochHeight < ep.NetworkEpochHeight)
    (hsend : ∀ w1 c, (ch.send w1 c).1 = .successValue
      (.callbackResult { IsSuccess := true, NetworkEpochHeight := ep.NetworkEpochHeight }))
    (w : W) :
    (takeUnstakedBalance ch w).err = none ∧
      calls (takeUnstakedBalance ch w).sent =
        if ep.NetworkEpochHeight % 4 = 0 then
          (validators.filter fun v => decide (v.LastUpdateEpochHeight ≠ ep.NetworkEpochHeight) &&
            decide (v.UnstakedBalance > 0)).map fun v => Call.take_unstaked_balance v.AccountID
        else [] := by
  unfold takeUnstakedBalance
  simp only [hep, hreg]
  by_cases h4 : ep.NetworkEpochHeight % 4 = 0
  · have hg : ¬ (ep.NetworkEpochHeight % 4 ≠ 0 ∨ ep.PoolEpochHeight ≥ ep.NetworkEpochHeight) := by
      omega
    rw [if_neg hg, if_pos h4]
    exact takeUnstakedBalanceLoop_ok ch _ hsend validators w
  · have hg : ep.NetworkEpochHeight % 4 ≠ 0 ∨ ep.PoolEpochHeight ≥ ep.NetworkEpochHeight :=
      Or.inl h4
    rw [if_pos hg, if_neg h4]
    exact ⟨rfl, rfl⟩

theorem requestedDecrease_ok {W : Type} (nfs : String → Option Int) (ch : Chain W)
    (ep : EpochHeightRegistry) (validators : List Validator) (wf : RequestedToWithdrawalFund)
    (investment : List (String × String × Int))
    (hep : ∀ w1, (ch.view w1).get_current_epoch_height = .ok ep)
    (hreg : ∀ w1, (ch.view w1).get_validator_registry = .ok validators)
    (hwf : ∀ w1, (ch.view w1).get_requested_to_withdrawal_fund = .ok wf)
    (hlt : ep.PoolEpochHeight < ep.NetworkEpochHeight)
    (hinv : wf.InvestmentWithdrawalRegistry =
      investment.map fun p => [JsonField.str p.1, JsonField.str p.2.1])
    (hparse : ∀ p ∈ investment, nfs p.2.1 = some p.2.2)
    (hsend : ∀ w1 c, (ch.send w1 c).1 = .successValue
      (.callbackResult { IsSuccess := true, NetworkEpochHeight := ep.NetworkEpochHeight }))
    (w : W) :
    (requestedDecreaseValidatorStake nfs ch w).err = none ∧
      calls (requestedDecreaseValidatorStake nfs ch w).sent =
        if ep.NetworkEpochHeight % 4 = 0 then
          classicWalk wf.ClassicNearAmount
              (validators.filter fun v =>
                !v.IsOnlyForInvestment && decide (v.ClassicStakedBalance > 0)) ++
            investment.map fun p =>
              Call.requested_decrease_validator_stake p.1 p.2.2 stakeDecreasingType.Investment
        else [] := by
  unfold requestedDecreaseValidatorStake
  simp only [hep, hreg, hwf]
  by_cases h4 : ep.NetworkEpochHeight % 4 = 0
  · have hg : ¬ (ep.NetworkEpochHeight % 4 ≠ 0 ∨ ep.PoolEpochHeight ≥ ep.NetworkEpochHeight) := by
      omega
    rw [if_neg hg, if_pos h4]
    have hc := classicDecreaseLoop_ok ch _ hsend (filterClassicStaked validators)
      wf.ClassicNearAmount w
    simp only [hc.1, hinv]
    have hi := investmentDecreaseLoop_ok nfs ch _ hsend investment
      (classicDecreaseLoop ch ep.NetworkEpochHeight (filterClassicStaked validators)
        wf.ClassicNearAmount w).world hparse
    refine ⟨hi.1, ?_⟩
    rw [calls_append, hc.2, hi.2]
    rfl
  · have hg : ep.NetworkEpochHeight % 4 ≠ 0 ∨ ep.PoolEpochHeight ≥ ep.NetworkEpochHeight :=
      Or.inl h4
    rw [if_pos hg, if_neg h4]
    exact ⟨rfl, rfl⟩

/-- Claim C5 (`PoolUpdate` send sequence): on a chain whose views stay fixed
during the tick, with `pool_epoch < network_epoch`, well-formed
`investment_registry` entries and every transaction answered by
`{is_success: true, network_epoch}`, `PoolUpdate` returns success and sends, in
this order: (a) only if `network_epoch mod 4 == 0`, `take_unstaked_balance` for
each registry validator with `last_update_epoch != network_epoch` and
`unstaked > 0`; (b) `update_validator` for each registry validator with
`last_update_epoch != network_epoch`; (c) only if `network_epoch mod 4 == 0`,
the Classic decreases of the withdrawal walk followed by one Investment
decrease per `investment_registry` entry; (d) one `update`. -/
theorem PoolUpdate_send_sequence {W : Type} (newFromString : String → Option Int)
    (ch : Chain W) (w : W) (ep : EpochHeightRegistry) (account : AccountView)
    (validators : List Validator) (wf : RequestedToWithdrawalFund)
    (investment : List (String × String × Int))
    (hep : ∀ w1, (ch.view w1).get_current_epoch_height = .ok ep)
    (hacc : ∀ w1, (ch.view w1).accountView = .ok account)
    (hreg : ∀ w1, (ch.view w1).get_validator_registry = .ok validators)
    (hwf : ∀ w1, (ch.view w1).get_requested_to_withdrawal_fund = .ok wf)
    (hlt : ep.PoolEpochHeight < ep.NetworkEpochHeight)
    (hinv : wf.InvestmentWithdrawalRegistry =
      investment.map fun p => [JsonField.str p.1, JsonField.str p.2.1])
    (hparse : ∀ p ∈ investment, newFromString p.2.1 = some p.2.2)
    (hsend : ∀ w1 c, (ch.send w1 c).1 = .successValue
      (.callbackResult { IsSuccess := true, NetworkEpochHeight := ep.NetworkEpochHeight })) :
    (PoolUpdate newFromString ch w).result = .returned none ∧
      calls (PoolUpdate newFromString ch w).sent =
        (if ep.NetworkEpochHeight % 4 = 0 then
          (validators.filter fun v => decide (v.LastUpdateEpochHeight ≠ ep.NetworkEpochHeight) &&
            decide (v.UnstakedBalance > 0)).map fun v => Call.take_unstaked_balance v.AccountID
        else []) ++
        ((validators.filter fun v => decide (v.LastUpdateEpochHeight ≠ ep.NetworkEpochHeight)).map
          fun v => Call.update_validator v.AccountID) ++
        (if ep.NetworkEpochHeight % 4 = 0 then
          classicWalk wf.ClassicNearAmount
              (validators.filter fun v =>
                !v.IsOnlyForInvestment && decide (v.ClassicStakedBalance > 0)) ++
            investment.map fun p =>
              Call.requested_decrease_validator_stake p.1 p.2.2 stakeDecreasingType.Investment
        else []) ++
        [Call.update] := by
  have hT := takeUnstakedBalance_ok ch ep validators hep hreg hlt hsend w
  have hU := updateValidatorLoop_ok ch ep.NetworkEpochHeight hsend validators
    (takeUnstakedBalance ch w).world
  have hD := requestedDecrease_ok newFromString ch ep validators wf investment hep hreg hwf hlt
    hinv hparse hsend
    (updateValidatorLoop ch ep.NetworkEpochHeight validators (takeUnstakedBalance ch w).world).world
  have hne : ¬ ep.PoolEpochHeight = ep.NetworkEpochHeight := by omega
  unfold PoolUpdate
  simp only [hT.1, hep, hne, if_false, hacc, hreg, hU.1, hD.1, hsend, calls_append, hT.2, hU.2,
    hD.2, true_and]
  rfl

/-- Claim C5, witness: pool 99, network 100, `A` with `unstaked = 5 * 10 ^ 24` and
`classic_staked = 10 * 10 ^ 24`, `B` with `unstaked = 0` and
`classic_staked = 4 * 10 ^ 24`, classic request `3 * 10 ^ 24`. -/
theorem PoolUpdate_send_sequence_witness :
    (PoolUpdate sampleNewFromString staleChain ()).result = .returned none ∧
      calls (PoolUpdate sampleNewFromString staleChain ()).sent =
        [Call.take_unstaked_balance "A", Call.update_validator "A", Call.update_validator "B",
         Call.requested_decrease_validator_stake "A" (3 * 10 ^ 24) stakeDecreasingType.Classic,
         Call.update] :=
  have h := PoolUpdate_send_sequence sampleNewFromString staleChain ()
    { PoolEpochHeight := 99, NetworkEpochHeight := 100 } { Amount := 10 ^ 24, BlockHash := "" }
    twoValidators classicWithdrawal [] (fun _ => rfl) (fun _ => rfl) (fun _ => rfl)
    (fun _ => rfl) (by decide) rfl (fun _ hp => absurd hp (List.not_mem_nil _))
    (fun _ _ => rfl)
  ⟨h.1, h.2.trans (by decide)⟩

/-! ## Conservation in the branch `part ≥ minRebalanceStake` -/

theorem sum_stake_const (l : List Validator) (part : Int) :
    ((l.map fun v => ({ validator := v, stake := part } : validatorShare)).map
      fun s => s.stake).sum = (l.length : Int) * part := by
  induction l with
  | nil => simp
  | cons a l ih =>
    simp only [List.map_cons, List.sum_cons, List.length_cons, ih]
    push_cast
    ring

/-- When `part = floor(u / N)` reaches `minRebalanceStake`, the shares of the `N`
candidates add up to exactly `u` (for `N < 2 * 10 ^ 16`, where `part` is the floor). -/
theorem computeShares_even_sum (u : Int) (fv : List Validator) (hu : 0 ≤ u)
    (hN : 1 ≤ fv.length) (hN16 : fv.length < 2 * 10 ^ 16)
    (hpart : 10 ^ 24 ≤ u / (fv.length : Int)) :
    ∃ shares, computeShares u fv = some shares ∧ (shares.map fun s => s.stake).sum = u := by
  have hfloor : decimalDivTruncate u (fv.length : Int) = u / (fv.length : Int) :=
    decimalDivTruncate_floor u _ hu (by omega) (by omega)
  rw [computeShares_eq u fv hu hN (by omega), hfloor, if_neg (not_lt.2 hpart)]
  obtain ⟨n, hn⟩ : ∃ n, fv.length = n + 1 := ⟨fv.length - 1, by omega⟩
  have hlt : n < fv.length := by omega
  rw [appendShares_of_le fv _ fv.length (le_refl _)]
  have htake : fv.take fv.length = fv.take n ++ [fv[n]] := by
    rw [hn, List.take_succ, List.getElem?_eq_getElem hlt]
    rfl
  rw [htake, List.map_append, List.map_cons, List.map_nil, Option.some_bind, addToLast_concat]
  refine ⟨_, rfl, ?_⟩
  rw [List.map_append, List.sum_append, sum_stake_const]
  simp only [List.map_cons, List.map_nil, List.sum_cons, List.sum_nil, List.length_take,
    Nat.min_eq_left (Nat.le_of_lt hlt)]
  have hdm := Int.ediv_add_emod u (fv.length : Int)
  have hcast : (fv.length : Int) = (n : Int) + 1 := by
    rw [hn]
    push_cast
    rfl
  rw [hcast] at hdm ⊢
  linarith

/-! ## Allocation below one whole token -/

theorem bigIntInt64_zero : bigIntInt64 0 = 0 := by
  decide

theorem decimalDivTruncate_le_self (u N : Int) (hu : 0 ≤ u) (hN : 0 < N) :
    decimalDivTruncate u N ≤ u := by
  unfold decimalDivTruncate
  rw [decimalDiv_nonneg u N hu hN]
  have ha : (0 : Int) ≤ u * 10 ^ 16 := Int.mul_nonneg hu (by norm_num)
  have hq0 : 0 ≤ u * 10 ^ 16 / N := Int.ediv_nonneg ha (le_of_lt hN)
  have hq1 : u * 10 ^ 16 / N ≤ u * 10 ^ 16 := Int.ediv_le_self _ ha
  have h0 : (0 : Int) ≤ if 2 * (u * 10 ^ 16 % N) < N then u * 10 ^ 16 / N
      else u * 10 ^ 16 / N + 1 := by
    split <;> omega
  rw [Int.tdiv_eq_ediv h0 (by norm_num)]
  split <;> omega

/-- Where `Div(minRebalanceStake)` rounds to less than one, no validator is
selected, and the adjustment of the last share indexes an empty slice. -/
theorem computeShares_below_minimum (u : Int) (fv : List Validator) (h0 : 0 < u)
    (h1 : u < 10 ^ 24 - 5 * 10 ^ 7) (hN : 1 ≤ fv.length) : computeShares u fv = none := by
  have hNpos : (0 : Int) < (fv.length : Int) := by omega
  have hpart : decimalDivTruncate u (fv.length : Int) < 10 ^ 24 :=
    lt_of_le_of_lt (decimalDivTruncate_le_self u _ (le_of_lt h0) hNpos) (by omega)
  have hk : decimalDivIntPart u (10 ^ 24) = 0 := by
    have h2 : decimalDivTruncate u (10 ^ 24) = 0 := by
      rw [decimalDivTruncate_min u (le_of_lt h0)]
      exact Int.ediv_eq_zero_of_lt (by omega) (by omega)
    show bigIntInt64 (decimalDivTruncate u (10 ^ 24)) = 0
    rw [h2, bigIntInt64_zero]
  unfold computeShares minRebalanceStake
  simp only [hk, if_pos hpart]
  rfl

/-- Claim C14 (allocation of `IncreaseStake` is total), evaluated where the code
breaks it: with all gates passing, a non-empty candidate list and
`0 < classic_unstaked < 10 ^ 24 - 5 * 10 ^ 7` (where `Div(minRebalanceStake)` rounds
to less than one), no validator is selected, the share list is empty, and
`shares[len(shares)-1]` panics with an index out of range; nothing is sent. -/
theorem IncreaseStake_small_fund_panics {W : Type} (ch : Chain W) (w : W)
    (genesis : GenesisConfig) (height : Nat) (epochs : EpochHeightRegistry)
    (validators : List Validator) (fund : Fund)
    (hgen : (ch.view w).genesisConfig = .ok genesis)
    (hlat : (ch.view w).latestBlockHeight = .ok height)
    (hL : 6480 ≤ genesis.EpochLength) (hL64 : genesis.EpochLength < 2 ^ 64)
    (hwin : genesis.EpochLength - 6480 ≤ height % genesis.EpochLength)
    (hdist : (ch.view w).is_stake_distributed = .ok false)
    (hep : (ch.view w).get_current_epoch_height = .ok epochs)
    (heq : epochs.PoolEpochHeight = epochs.NetworkEpochHeight)
    (hreg : (ch.view w).get_validator_registry = .ok validators)
    (hcand : filterCandidates epochs.PoolEpochHeight validators ≠ [])
    (hfund : (ch.view w).get_fund = .ok fund)
    (hpos : 0 < fund.ClassicUnstakedBalance)
    (hsmall : fund.ClassicUnstakedBalance < 10 ^ 24 - 5 * 10 ^ 7) :
    (IncreaseStake ch w).result = .panicked "index out of range" ∧
      (IncreaseStake ch w).sent = [] := by
  have hL0 : ¬ genesis.EpochLength = 0 := by omega
  have hgate : ¬ height % genesis.EpochLength < (genesis.EpochLength + 2 ^ 64 - 6480) % 2 ^ 64 := by
    rw [window_threshold _ hL hL64]
    omega
  have hne : ¬ epochs.NetworkEpochHeight ≠ epochs.PoolEpochHeight := by
    rw [heq]; exact not_not.2 rfl
  have hu0 : ¬ fund.ClassicUnstakedBalance = 0 := by omega
  have hlen : ¬ (filterCandidates epochs.PoolEpochHeight validators).length = 0 := by
    intro h
    exact hcand (List.length_eq_zero.1 h)
  have hshares := computeShares_below_minimum fund.ClassicUnstakedBalance
    (filterCandidates epochs.PoolEpochHeight validators) hpos hsmall (by omega)
  unfold IncreaseStake
  simp only [hgen, hlat, hL0, hgate, hdist, hep, hne, hreg, hfund, hu0, hlen, hshares,
    if_false, Bool.false_eq_true, and_self]

/-- Claim C14, failing input: `classic_unstaked = 5 * 10 ^ 23` (half a token) with
four candidates. -/
theorem IncreaseStake_small_fund_panics_witness :
    (IncreaseStake halfTokenChain ()).result = .panicked "index out of range" ∧
      (IncreaseStake halfTokenChain ()).sent = [] :=
  IncreaseStake_small_fund_panics halfTokenChain ()
    { EpochLength := 43200, GenesisHeight := 0 } 40000
    { PoolEpochHeight := 100, NetworkEpochHeight := 100 } fourCandidates
    { ClassicUnstakedBalance := 5 * 10 ^ 23, ClassicStakedBalance := 0,
      InvestmentStakedBalance := 0, CommonStakedBalance := 0, CommonBalance := 0 }
    rfl rfl (by decide) (by decide) (by decide) rfl rfl rfl rfl (by decide) rfl (by decide)
    (by decide)

/-! ## `stakeDistribution`: the level test -/

theorem mem_insertDescending (v x : Validator) :
    ∀ l : List Validator, x ∈ insertDescending v l ↔ x = v ∨ x ∈ l
  | [] => by simp [insertDescending]
  | y :: rest => by
    rw [insertDescending]
    split
    · simp
    · rw [List.mem_cons, mem_insertDescending v x rest, List.mem_cons]
      constructor
      · rintro (h | h | h)
        · exact Or.inr (Or.inl h)
        · exact Or.inl h
        · exact Or.inr (Or.inr h)
      · rintro (h | h | h)
        · exact Or.inr (Or.inl h)
        · exact Or.inl h
        · exact Or.inr (Or.inr h)

theorem perm_insertDescending (v : Validator) :
    ∀ l : List Validator, (insertDescending v l).Perm (v :: l)
  | [] => List.Perm.refl _
  | x :: rest => by
    rw [insertDescending]
    split
    · exact List.Perm.refl _
    · exact ((perm_insertDescending v rest).cons x).trans (List.Perm.swap v x rest)

theorem pairwise_insertDescending (v : Validator) :
    ∀ l : List Validator,
      l.Pairwise (fun a b => b.ClassicStakedBalance ≤ a.ClassicStakedBalance) →
      (insertDescending v l).Pairwise fun a b => b.ClassicStakedBalance ≤ a.ClassicStakedBalance
  | [], _ => by simp [insertDescending]
  | x :: rest, h => by
    rw [insertDescending]
    rw [List.pairwise_cons] at h
    split
    · rename_i hlt
      refine List.pairwise_cons.2 ⟨?_, List.pairwise_cons.2 h⟩
      intro y hy
      rcases List.mem_cons.1 hy with hy | hy
      · rw [hy]
        exact le_of_lt hlt
      · exact le_trans (h.1 y hy) (le_of_lt hlt)
    · rename_i hge
      refine List.pairwise_cons.2 ⟨?_, pairwise_insertDescending v rest h.2⟩
      intro y hy
      rcases (mem_insertDescending v y rest).1 hy with hy | hy
      · rw [hy]
        exact not_lt.1 hge
      · exact h.1 y hy

theorem foldl_insertDescending_sorted (l : List Validator) :
    ∀ acc : List Validator,
      acc.Pairwise (fun a b => b.ClassicStakedBalance ≤ a.ClassicStakedBalance) →
      (l.foldl (fun sorted v => insertDescending v sorted) acc).Perm (acc ++ l) ∧
        (l.foldl (fun sorted v => insertDescending v sorted) acc).Pairwise
          fun a b => b.ClassicStakedBalance ≤ a.ClassicStakedBalance := by
  induction l with
  | nil =>
    intro acc h
    exact ⟨by simp, h⟩
  | cons v rest ih =>
    intro acc h
    obtain ⟨h1, h2⟩ := ih (insertDescending v acc) (pairwise_insertDescending v acc h)
    refine ⟨?_, h2⟩
    rw [List.foldl_cons]
    refine h1.trans ?_
    have hp : (insertDescending v acc ++ rest).Perm ((v :: acc) ++ rest) :=
      (perm_insertDescending v acc).append_right rest
    refine hp.trans ?_
    have hm : (acc ++ v :: rest).Perm (v :: (acc ++ rest)) := List.perm_middle
    simpa using hm.symm

/-- The insertion sort meets the guarantee of `sort.Slice`. -/
theorem sortSlice_sortsDescending : SortsDescending sortSlice := by
  intro l
  have h := foldl_insertDescending_sorted l [] List.Pairwise.nil
  exact ⟨by simpa [sortSlice] using h.1, h.2⟩

/-- After the sort the first validator carries the largest balance, and the
validators are the same. -/
theorem sortSlice_spec (sort : List Validator → List Validator) (hsort : SortsDescending sort)
    (l : List Validator) : HeadMax (sort l) ∧ ∀ x, x ∈ sort l ↔ x ∈ l := by
  obtain ⟨hp, hs⟩ := hsort l
  refine ⟨?_, fun x => hp.mem_iff⟩
  cases hl : sort l with
  | nil => trivial
  | cons top rest =>
    rw [hl] at hs
    exact (List.pairwise_cons.1 hs).1

theorem sharesGet_nonneg (shares : Shares) (hnonneg : ∀ p ∈ shares, 0 ≤ p.2) (id : String)
    (s : Int) (h : sharesGet shares id = some s) : 0 ≤ s := by
  induction shares with
  | nil => simp [sharesGet] at h
  | cons p rest ih =>
    obtain ⟨k, value⟩ := p
    rw [sharesGet] at h
    split at h
    · simp only [Option.some.injEq] at h
      rw [← h]
      exact hnonneg (k, value) (List.mem_cons_self _ _)
    · exact ih (fun q hq => hnonneg q (List.mem_cons_of_mem _ hq)) h

/-- After the first loop `max` bounds every copied balance and the starting
value, and it is the starting value or one of the copied balances. -/
theorem fillShares_max (shares : Shares) :
    ∀ (l : List Validator) (m : Int),
      m ≤ (fillShares shares l m).2 ∧
        (∀ v ∈ (fillShares shares l m).1, v.ClassicStakedBalance ≤ (fillShares shares l m).2) ∧
        ((fillShares shares l m).2 = m ∨
          ∃ v ∈ (fillShares shares l m).1, v.ClassicStakedBalance = (fillShares shares l m).2)
  | [], m => by simp [fillShares]
  | v :: rest, m => by
    rw [fillShares]
    dsimp only
    generalize hf : (match sharesGet shares v.AccountID with
      | some share => { v with ClassicStakedBalance := v.ClassicStakedBalance + share }
      | none => v) = filled
    have ih := fillShares_max shares rest
      (if filled.ClassicStakedBalance > m then filled.ClassicStakedBalance else m)
    obtain ⟨ih1, ih2, ih3⟩ := ih
    by_cases hgt : filled.ClassicStakedBalance > m
    · rw [if_pos hgt] at ih1 ih2 ih3 ⊢
      refine ⟨le_trans (le_of_lt hgt) ih1, ?_, ?_⟩
      · intro x hx
        rcases List.mem_cons.1 hx with hx | hx
        · rw [hx]
          exact ih1
        · exact ih2 x hx
      · right
        rcases ih3 with h | ⟨x, hx, h⟩
        · exact ⟨filled, List.mem_cons_self _ _, h.symm⟩
        · exact ⟨x, List.mem_cons_of_mem _ hx, h⟩
    · rw [if_neg hgt] at ih1 ih2 ih3 ⊢
      refine ⟨ih1, ?_, ?_⟩
      · intro x hx
        rcases List.mem_cons.1 hx with hx | hx
        · rw [hx]
          exact le_trans (not_lt.1 hgt) ih1
        · exact ih2 x hx
      · rcases ih3 with h | ⟨x, hx, h⟩
        · exact Or.inl h
        · exact Or.inr ⟨x, List.mem_cons_of_mem _ hx, h⟩

theorem levelTest_always (sort : List Validator → List Validator)
    (hsort : SortsDescending sort) (shares : Shares) (validators : List Validator)
    (hne : validators ≠ []) (hnonneg : ∀ p ∈ shares, 0 ≤ p.2) :
    levelTest sort shares validators = true := by
  rcases validators with _ | ⟨first, others⟩
  · exact absurd rfl hne
  · obtain ⟨h1, h2, h3⟩ := fillShares_max shares (first :: others) first.ClassicStakedBalance
    -- the copy of the first validator carries at least the starting value
    have hfirst : ∃ v ∈ (fillShares shares (first :: others) first.ClassicStakedBalance).1,
        first.ClassicStakedBalance ≤ v.ClassicStakedBalance := by
      rw [fillShares]
      dsimp only
      refine ⟨_, List.mem_cons_self _ _, ?_⟩
      cases hg : sharesGet shares first.AccountID with
      | none => exact le_refl _
      | some s =>
        have := sharesGet_nonneg shares hnonneg _ _ hg
        show first.ClassicStakedBalance ≤ first.ClassicStakedBalance + s
        omega
    have hatt : ∃ v ∈ (fillShares shares (first :: others) first.ClassicStakedBalance).1,
        v.ClassicStakedBalance = (fillShares shares (first :: others) first.ClassicStakedBalance).2 := by
      rcases h3 with h | h
      · obtain ⟨v, hv, hle⟩ := hfirst
        exact ⟨v, hv, le_antisymm (h2 v hv) (by rw [h]; exact hle)⟩
      · exact h
    obtain ⟨hs1, hs2⟩ := sortSlice_spec sort hsort
      (fillShares shares (first :: others) first.ClassicStakedBalance).1
    obtain ⟨v, hv, hveq⟩ := hatt
    unfold levelTest
    dsimp only
    cases hsorted : sort (fillShares shares (first :: others) first.ClassicStakedBalance).1 with
    | nil =>
      have := (hs2 v).2 hv
      rw [hsorted] at this
      cases this
    | cons top rest =>
      rw [hsorted] at hs1 hs2
      have htop : top.ClassicStakedBalance ≤
          (fillShares shares (first :: others) first.ClassicStakedBalance).2 :=
        h2 top ((hs2 top).1 (List.mem_cons_self _ _))
      have hvle : v.ClassicStakedBalance ≤ top.ClassicStakedBalance := by
        rcases List.mem_cons.1 ((hs2 v).2 hv) with h | h
        · rw [h]
        · exact hs1 v h
      simp only [decide_eq_true_eq]
      omega

/-- When the level test holds, `stakeDistribution` is its equal-part /
single-validator branch; the levelling loop is not reached. -/
theorem stakeDistribution_of_levelTest (sort : List Validator → List Validator) (fuel : Nat)
    (stakeRemains : Int) (shares : Shares) (first : Validator) (others : List Validator)
    (h : levelTest sort shares (first :: others) = true) :
    stakeDistribution sort (fuel + 1) stakeRemains shares (first :: others) =
      if decimalDivTruncate stakeRemains ((first :: others).length : Int) > minRebalanceStake then
        some (shares.map fun p =>
          (p.1, p.2 + decimalDivTruncate stakeRemains ((first :: others).length : Int)))
      else
        match sort (fillShares shares (first :: others) first.ClassicStakedBalance).1 with
        | [] => none
        | top :: _ => some (sharesSet shares top.AccountID stakeRemains) := by
  rw [stakeDistribution]
  simp only [h, if_true]

/-- Claim C13 (branch selection of `stakeDistribution`), evaluated where the code
breaks it: whatever descending sort `sort.Slice` performs, for every non-empty
validator list and every shares map with non-negative values the test on the
first sorted validator holds, whether the effective balances are equal or not,
so `stakeDistribution` always runs the equal-part / single-validator branch and
never the levelling loop. -/
theorem stakeDistribution_level_branch_always (sort : List Validator → List Validator)
    (hsort : SortsDescending sort) (fuel : Nat) (stakeRemains : Int)
    (shares : Shares) (first : Validator) (others : List Validator)
    (hnonneg : ∀ p ∈ shares, 0 ≤ p.2) :
    levelTest sort shares (first :: others) = true ∧
      stakeDistribution sort (fuel + 1) stakeRemains shares (first :: others) =
        if decimalDivTruncate stakeRemains ((first :: others).length : Int) > minRebalanceStake
        then
          some (shares.map fun p =>
            (p.1, p.2 + decimalDivTruncate stakeRemains ((first :: others).length : Int)))
        else
          match sort (fillShares shares (first :: others) first.ClassicStakedBalance).1 with
          | [] => none
          | top :: _ => some (sharesSet shares top.AccountID stakeRemains) :=
  ⟨levelTest_always sort hsort shares (first :: others) (List.cons_ne_nil _ _) hnonneg,
    stakeDistribution_of_levelTest sort fuel stakeRemains shares first others
      (levelTest_always sort hsort shares (first :: others) (List.cons_ne_nil _ _) hnonneg)⟩

/-- Claim C13, failing input: validators with balances of 10, 6 and 4 tokens and
no shares; the test holds, and one token to distribute goes to `A` alone. -/
theorem stakeDistribution_level_branch_always_witness :
    SortsDescending sortSlice ∧ (∀ p ∈ ([] : Shares), 0 ≤ p.2) ∧
      (threeValidators.map fun v => v.ClassicStakedBalance) =
        [10 * 10 ^ 24, 6 * 10 ^ 24, 4 * 10 ^ 24] ∧
      levelTest sortSlice [] threeValidators = true ∧
      stakeDistribution sortSlice 1 (10 ^ 24) [] threeValidators = some [("A", 10 ^ 24)] :=
  ⟨sortSlice_sortsDescending, fun _ hp => absurd hp (List.not_mem_nil _), by decide,
    (stakeDistribution_level_branch_always sortSlice sortSlice_sortsDescending 0 (10 ^ 24) []
      (sampleValidator "A" (10 * 10 ^ 24) 0 99)
      [sampleValidator "B" (6 * 10 ^ 24) 0 99, sampleValidator "C" (4 * 10 ^ 24) 0 99]
      (fun _ hp => absurd hp (List.not_mem_nil _))).1,
    by decide⟩

/-- Claim C12 (rebalance levelling scenario), evaluated on the code: for A (10
tokens), B (6), C (4), `remaining = 8 * 10 ^ 24` and an empty shares map,
`stakeDistribution` returns with the shares map still empty, not with
`{B: 4 * 10 ^ 24, C: 4 * 10 ^ 24}`. -/
theorem stakeDistribution_three_validators (fuel : Nat) :
    stakeDistribution sortSlice (fuel + 1) (8 * 10 ^ 24) [] threeValidators = some [] ∧
      stakeDistribution sortSlice (fuel + 1) (8 * 10 ^ 24) [] threeValidators ≠
        some [("B", 4 * 10 ^ 24), ("C", 4 * 10 ^ 24)] := by
  have h : stakeDistribution sortSlice (fuel + 1) (8 * 10 ^ 24) [] threeValidators = some [] := by
    unfold threeValidators
    rw [stakeDistribution_of_levelTest sortSlice fuel _ _ _ _ (by decide)]
    decide
  rw [h]
  exact ⟨rfl, by decide⟩

/-- Claim C11 (conservation of `stakeDistribution`), evaluated where the code
breaks it: with one validator `A`, `shares = {A: 5 * 10 ^ 24}` and
`remaining = 10 ^ 24`, the share of `A` is overwritten by `remaining`, so the
sum of the shares goes down by `4 * 10 ^ 24`. -/
theorem stakeDistribution_overwrites_share (fuel : Nat) :
    stakeDistribution sortSlice (fuel + 1) (10 ^ 24) [("A", 5 * 10 ^ 24)]
        [sampleValidator "A" (10 * 10 ^ 24) 0 99] = some [("A", 10 ^ 24)] ∧
      sharesTotal [("A", 10 ^ 24)] = sharesTotal [("A", 5 * 10 ^ 24)] + (-4 * 10 ^ 24) := by
  refine ⟨?_, by decide⟩
  rw [stakeDistribution_of_levelTest sortSlice fuel _ _ _ _ (by decide)]
  decide

/-! ## Total of the classic withdrawal walk -/

theorem classicAmounts_append (a b : List Call) :
    classicAmounts (a ++ b) = classicAmounts a ++ classicAmounts b := by
  induction a with
  | nil => rfl
  | cons c rest ih =>
    cases c with
    | requested_decrease_validator_stake id amount ty =>
      cases ty <;> simp [classicAmounts, ih]
    | _ => simp [classicAmounts, ih]

theorem classicAmounts_investment (cs : List Call)
    (h : ∀ c ∈ cs, ∃ id amount,
      c = Call.requested_decrease_validator_stake id amount stakeDecreasingType.Investment) :
    classicAmounts cs = [] := by
  induction cs with
  | nil => rfl
  | cons c rest ih =>
    obtain ⟨id, amount, hc⟩ := h c (List.mem_cons_self _ _)
    subst hc
    simp only [classicAmounts]
    exact ih fun c hc => h c (List.mem_cons_of_mem _ hc)

theorem sum_classicStaked_nonneg (vs : List Validator)
    (hpos : ∀ v ∈ vs, 0 < v.ClassicStakedBalance) :
    0 ≤ (vs.map fun v => v.ClassicStakedBalance).sum := by
  induction vs with
  | nil => simp
  | cons v rest ih =>
    have h1 := hpos v (List.mem_cons_self _ _)
    have h2 := ih fun x hx => hpos x (List.mem_cons_of_mem _ hx)
    simp only [List.map_cons, List.sum_cons]
    omega

/-- The walk over validators with a positive `classic_staked`: the amounts sum
to `min(need, S)`, each one is positive, and each one is sent while the
remaining need is still positive. -/
theorem classicWalk_total :
    ∀ (vs : List Validator) (need : Int), (∀ v ∈ vs, 0 < v.ClassicStakedBalance) → 0 ≤ need →
      (classicAmounts (classicWalk need vs)).sum =
          min need (vs.map fun v => v.ClassicStakedBalance).sum ∧
        ∀ pre a post, classicAmounts (classicWalk need vs) = pre ++ a :: post →
          0 < a ∧ pre.sum < need
  | [], need, _, hneed => by
    refine ⟨?_, ?_⟩
    · simp only [classicWalk, classicAmounts, List.map_nil, List.sum_nil]
      omega
    · intro pre a post h
      simp [classicWalk, classicAmounts] at h
  | v :: rest, need, hpos, hneed => by
    have hv := hpos v (List.mem_cons_self _ _)
    have hrest : ∀ x ∈ rest, 0 < x.ClassicStakedBalance :=
      fun x hx => hpos x (List.mem_cons_of_mem _ hx)
    have hS := sum_classicStaked_nonneg rest hrest
    rw [classicWalk]
    by_cases h0 : need = 0
    · rw [if_pos h0]
      refine ⟨?_, ?_⟩
      · simp only [classicAmounts, List.map_cons, List.sum_cons, List.sum_nil]
        omega
      · intro pre a post h
        simp [classicAmounts] at h
    · rw [if_neg h0]
      by_cases h1 : need ≥ v.ClassicStakedBalance
      · rw [if_pos h1]
        obtain ⟨ih1, ih2⟩ := classicWalk_total rest (need - v.ClassicStakedBalance) hrest
          (by omega)
        refine ⟨?_, ?_⟩
        · simp only [classicAmounts, List.map_cons, List.sum_cons, ih1]
          omega
        · intro pre a post h
          simp only [classicAmounts] at h
          rcases pre with _ | ⟨p, pre⟩
          · simp only [List.nil_append, List.cons.injEq] at h
            rw [← h.1]
            exact ⟨hv, by simp only [List.sum_nil]; omega⟩
          · simp only [List.cons_append, List.cons.injEq] at h
            obtain ⟨ha, hp⟩ := ih2 pre a post h.2
            refine ⟨ha, ?_⟩
            simp only [List.sum_cons]
            omega
      · rw [if_neg h1]
        refine ⟨?_, ?_⟩
        · simp only [classicAmounts, List.map_cons, List.sum_cons, List.sum_nil]
          omega
        · intro pre a post h
          simp only [classicAmounts] at h
          rcases pre with _ | ⟨p, pre⟩
          · simp only [List.nil_append, List.cons.injEq] at h
            rw [← h.1]
            exact ⟨by omega, by simp only [List.sum_nil]; omega⟩
          · simp at h

/-- With the gate open and every call accepted, the Classic calls of
`requestedDecreaseValidatorStake` are those of the walk, whatever the
investment registry holds. -/
theorem requestedDecrease_classicAmounts {W : Type} (nfs : String → Option Int) (ch : Chain W)
    (w : W) (ep : EpochHeightRegistry) (wf : RequestedToWithdrawalFund)
    (validators : List Validator)
    (hep : (ch.view w).get_current_epoch_height = .ok ep)
    (h4 : ep.NetworkEpochHeight % 4 = 0)
    (hlt : ep.PoolEpochHeight < ep.NetworkEpochHeight)
    (hwf : (ch.view w).get_requested_to_withdrawal_fund = .ok wf)
    (hreg : (ch.view w).get_validator_registry = .ok validators)
    (hsend : ∀ w1 c, (ch.send w1 c).1 = .successValue
      (.callbackResult { IsSuccess := true, NetworkEpochHeight := ep.NetworkEpochHeight })) :
    classicAmounts (calls (requestedDecreaseValidatorStake nfs ch w).sent) =
      classicAmounts (classicWalk wf.ClassicNearAmount (filterClassicStaked validators)) := by
  have hg : ¬ (ep.NetworkEpochHeight % 4 ≠ 0 ∨ ep.PoolEpochHeight ≥ ep.NetworkEpochHeight) := by
    omega
  have hc := classicDecreaseLoop_ok ch _ hsend (filterClassicStaked validators)
    wf.ClassicNearAmount w
  have hi : classicAmounts (calls (investmentDecreaseLoop nfs ch ep.NetworkEpochHeight
      wf.InvestmentWithdrawalRegistry
      (classicDecreaseLoop ch ep.NetworkEpochHeight (filterClassicStaked validators)
        wf.ClassicNearAmount w).world).sent) = [] := by
    apply classicAmounts_investment
    intro c hcm
    simp only [calls, List.mem_map] at hcm
    obtain ⟨x, hx, hxc⟩ := hcm
    obtain ⟨id, amount, he⟩ := investmentDecreaseLoop_sent_mem nfs ch _ _ _ x hx
    exact ⟨id, amount, by rw [← hxc, he]⟩
  unfold requestedDecreaseValidatorStake
  simp only [hep, hreg, hwf, if_neg hg, hc.1, calls_append, classicAmounts_append, hc.2, hi,
    List.append_nil]

/-- Claim C15 (total of the classic withdrawal walk): with the gate open
(`network_epoch mod 4 == 0`, `pool_epoch < network_epoch`), `need ≥ 0` and every
call accepted, the amounts of the Classic calls sent by
`requestedDecreaseValidatorStake` sum to `min(need, S)`, where `S` sums
`classic_staked` over the validators that are not only for investment and have
a positive `classic_staked`; every amount is positive, and every call is sent
while the amounts sent before it sum to less than `need`. -/
theorem requestedDecrease_classic_total {W : Type} (newFromString : String → Option Int)
    (ch : Chain W) (w : W) (ep : EpochHeightRegistry) (wf : RequestedToWithdrawalFund)
    (validators : List Validator)
    (hep : (ch.view w).get_current_epoch_height = .ok ep)
    (h4 : ep.NetworkEpochHeight % 4 = 0)
    (hlt : ep.PoolEpochHeight < ep.NetworkEpochHeight)
    (hwf : (ch.view w).get_requested_to_withdrawal_fund = .ok wf)
    (hreg : (ch.view w).get_validator_registry = .ok validators)
    (hneed : 0 ≤ wf.ClassicNearAmount)
    (hsend : ∀ w1 c, (ch.send w1 c).1 = .successValue
      (.callbackResult { IsSuccess := true, NetworkEpochHeight := ep.NetworkEpochHeight })) :
    (classicAmounts (calls (requestedDecreaseValidatorStake newFromString ch w).sent)).sum =
        min wf.ClassicNearAmount
          ((validators.filter fun v =>
            !v.IsOnlyForInvestment && decide (v.ClassicStakedBalance > 0)).map
              fun v => v.ClassicStakedBalance).sum ∧
      ∀ pre a post,
        classicAmounts (calls (requestedDecreaseValidatorStake newFromString ch w).sent) =
          pre ++ a :: post → 0 < a ∧ pre.sum < wf.ClassicNearAmount := by
  rw [requestedDecrease_classicAmounts newFromString ch w ep wf validators hep h4 hlt hwf hreg
    hsend]
  exact classicWalk_total (filterClassicStaked validators) wf.ClassicNearAmount
    (fun v hv => ((mem_filterClassicStaked validators v).1 hv).2.2) hneed

/-- Claim C15, witness: a need of `12 * 10 ^ 24` against `A` (10 tokens) and `B` (4
tokens) gives the amounts `10 * 10 ^ 24` and `2 * 10 ^ 24`. -/
theorem requestedDecrease_classic_total_witness :
    classicAmounts
        (calls (requestedDecreaseValidatorStake sampleNewFromString largeWithdrawalChain ()).sent) =
        [10 * 10 ^ 24, 2 * 10 ^ 24] ∧
      (classicAmounts
        (calls (requestedDecreaseValidatorStake sampleNewFromString
          largeWithdrawalChain ()).sent)).sum =
        min (12 * 10 ^ 24)
          ((twoValidators.filter fun v =>
            !v.IsOnlyForInvestment && decide (v.ClassicStakedBalance > 0)).map
              fun v => v.ClassicStakedBalance).sum :=
  ⟨by decide,
    (requestedDecrease_classic_total sampleNewFromString largeWithdrawalChain ()
      { PoolEpochHeight := 99, NetworkEpochHeight := 100 }
      { ClassicNearAmount := 12 * 10 ^ 24, InvestmentNearAmount := 0,
        InvestmentWithdrawalRegistry := [] }
      twoValidators rfl (by decide) (by decide) rfl rfl (by decide) (fun _ _ => rfl)).1⟩

/-! ## Shape of a `PoolUpdate` tick -/

theorem CheckedBy_nil (P : Call × SendOutcome → Prop) (err : GoError) : CheckedBy P err [] := by
  refine ⟨?_, ?_⟩
  · intro pre x post h
    simp at h
  · intro _ x hx
    cases hx

theorem CheckedBy_cons (P : Call × SendOutcome → Prop) (err : GoError) (x : Call × SendOutcome)
    (t : Trace) (hx : P x) (ht : CheckedBy P err t) : CheckedBy P err (x :: t) := by
  refine ⟨?_, ?_⟩
  · intro pre y post h hne
    rcases pre with _ | ⟨p, pre⟩
    · simp only [List.nil_append, List.cons.injEq] at h
      rw [← h.1]
      exact hx
    · simp only [List.cons_append, List.cons.injEq] at h
      exact ht.1 pre y post h.2 hne
  · intro he y hy
    rcases List.mem_cons.1 hy with hy | hy
    · rw [hy]
      exact hx
    · exact ht.2 he y hy

theorem CheckedBy_append (P : Call × SendOutcome → Prop) (err : GoError) (t1 t2 : Trace)
    (h1 : CheckedBy P none t1) (h2 : CheckedBy P err t2) : CheckedBy P err (t1 ++ t2) := by
  induction t1 with
  | nil => simpa using h2
  | cons x t ih =>
    have hx : P x := h1.2 rfl x (List.mem_cons_self _ _)
    have ht : CheckedBy P none t :=
      ⟨fun pre y post h hne => h1.2 rfl y (by rw [h]; simp),
        fun _ y hy => h1.2 rfl y (List.mem_cons_of_mem _ hy)⟩
    exact CheckedBy_cons P err x (t ++ t2) hx (ih ht)

/-- A trace validated against the epoch `E` is validated by its phase when `E`
is the epoch that phase read. -/
theorem CheckedBy_of_Checked {W : Type} (ch : Chain W) (w : W) (E : Nat) (err : GoError)
    (sent : Trace) (h : Checked E err sent)
    (hE : ∀ x ∈ sent, phaseEpoch ch w x.1 = some E) : CheckedBy (acceptedBy ch w) err sent := by
  refine ⟨?_, ?_⟩
  · intro pre x post hs hne
    exact ⟨E, hE x (by rw [hs]; simp), h.1 pre x post hs hne⟩
  · intro he x hx
    exact ⟨E, hE x hx, h.2 he x hx⟩

theorem networkEpochAt_ok {W : Type} (ch : Chain W) (w : W) (ep : EpochHeightRegistry)
    (h : (ch.view w).get_current_epoch_height = .ok ep) :
    networkEpochAt ch w = some ep.NetworkEpochHeight := by
  unfold networkEpochAt
  rw [h]

theorem takeUnstakedBalance_sent_of_error {W : Type} (ch : Chain W) (w : W) (e : String)
    (h : (ch.view w).get_current_epoch_height = .error e) :
    (takeUnstakedBalance ch w).sent = [] := by
  unfold takeUnstakedBalance
  simp only [h]

theorem requestedDecrease_sent_of_error {W : Type} (nfs : String → Option Int) (ch : Chain W)
    (w : W) (e : String) (h : (ch.view w).get_current_epoch_height = .error e) :
    (requestedDecreaseValidatorStake nfs ch w).sent = [] := by
  unfold requestedDecreaseValidatorStake
  simp only [h]

theorem takeUnstakedBalance_take_only {W : Type} (ch : Chain W) (w : W) :
    ∀ x ∈ (takeUnstakedBalance ch w).sent, ∃ id, x.1 = Call.take_unstaked_balance id := by
  intro x hx
  unfold takeUnstakedBalance at hx
  repeat' split at hx
  all_goals first
    | exact absurd hx (List.not_mem_nil _)
    | (obtain ⟨v, _, h1, _⟩ := takeUnstakedBalanceLoop_sent_mem ch _ _ _ _ hx
       exact ⟨_, h1⟩)

theorem requestedDecrease_decrease_only {W : Type} (nfs : String → Option Int) (ch : Chain W)
    (w : W) : ∀ x ∈ (requestedDecreaseValidatorStake nfs ch w).sent,
      ∃ id amount ty, x.1 = Call.requested_decrease_validator_stake id amount ty := by
  intro x hx
  have hc : ∀ E vs need w1, x ∈ (classicDecreaseLoop ch E vs need w1).sent →
      ∃ id amount ty, x.1 = Call.requested_decrease_validator_stake id amount ty := by
    intro E vs need w1 h
    obtain ⟨v, _, a, h1, _⟩ := classicDecreaseLoop_sent_mem ch E _ _ _ _ h
    exact ⟨_, _, _, h1⟩
  have hi : ∀ E en w1, x ∈ (investmentDecreaseLoop nfs ch E en w1).sent →
      ∃ id amount ty, x.1 = Call.requested_decrease_validator_stake id amount ty := by
    intro E en w1 h
    obtain ⟨i, a, h1⟩ := investmentDecreaseLoop_sent_mem nfs ch E _ _ _ h
    exact ⟨_, _, _, h1⟩
  unfold requestedDecreaseValidatorStake at hx
  dsimp only at hx
  repeat' split at hx
  all_goals first
    | exact absurd hx (List.not_mem_nil _)
    | exact hc _ _ _ _ hx
    | (rcases List.mem_append.1 hx with h | h
       · exact hc _ _ _ _ h
       · exact hi _ _ _ h)

/-- The phase `takeUnstakedBalance` validates every response against its own
read of the epoch. -/
theorem takeUnstakedBalance_checkedBy {W : Type} (ch : Chain W) (w : W) :
    CheckedBy (acceptedBy ch w) (takeUnstakedBalance ch w).err (takeUnstakedBalance ch w).sent := by
  cases hv : (ch.view w).get_current_epoch_height with
  | error e =>
    rw [takeUnstakedBalance_sent_of_error ch w e hv]
    exact CheckedBy_nil _ _
  | ok ep =>
    refine CheckedBy_of_Checked ch w ep.NetworkEpochHeight _ _
      (takeUnstakedBalance_checked ch w ep hv) ?_
    intro x hx
    obtain ⟨id, hid⟩ := takeUnstakedBalance_take_only ch w x hx
    rw [hid]
    exact networkEpochAt_ok ch w ep hv

theorem PoolUpdate_shape {W : Type} (nfs : String → Option Int) (ch : Chain W) (w : W) :
    PoolShape (acceptedBy ch w) (PoolUpdate nfs ch w) := by
  have hT := takeUnstakedBalance_checkedBy ch w
  have hTn := takeUnstakedBalance_no_update ch w
  unfold PoolUpdate
  dsimp only
  cases hterr : (takeUnstakedBalance ch w).err with
  | some e =>
    rw [hterr] at hT
    exact ⟨_, some e, hTn, hT, Or.inl ⟨rfl, fun _ => ⟨_, rfl⟩⟩⟩
  | none =>
    rw [hterr] at hT
    dsimp only
    cases hep : (ch.view (takeUnstakedBalance ch w).world).get_current_epoch_height with
    | error e => exact ⟨_, none, hTn, hT, Or.inl ⟨rfl, fun h => absurd rfl h⟩⟩
    | ok ep =>
      dsimp only
      by_cases heq : ep.PoolEpochHeight = ep.NetworkEpochHeight
      · rw [if_pos heq]
        exact ⟨_, none, hTn, hT, Or.inl ⟨rfl, fun h => absurd rfl h⟩⟩
      · rw [if_neg heq]
        cases hacc : (ch.view (takeUnstakedBalance ch w).world).accountView with
        | error e => exact ⟨_, none, hTn, hT, Or.inl ⟨rfl, fun h => absurd rfl h⟩⟩
        | ok a =>
          dsimp only
          cases hreg : (ch.view (takeUnstakedBalance ch w).world).get_validator_registry with
          | error e => exact ⟨_, none, hTn, hT, Or.inl ⟨rfl, fun h => absurd rfl h⟩⟩
          | ok validators =>
            dsimp only
            have hU : CheckedBy (acceptedBy ch w)
                (updateValidatorLoop ch ep.NetworkEpochHeight validators
                  (takeUnstakedBalance ch w).world).err
                (updateValidatorLoop ch ep.NetworkEpochHeight validators
                  (takeUnstakedBalance ch w).world).sent := by
              refine CheckedBy_of_Checked ch w ep.NetworkEpochHeight _ _
                (updateValidatorLoop_checked ch _ _ _) ?_
              intro x hx
              obtain ⟨v, _, h1, _⟩ := updateValidatorLoop_sent_mem ch _ _ _ x hx
              rw [h1]
              exact networkEpochAt_ok ch _ ep hep
            have hUn := updateValidatorLoop_no_update ch ep.NetworkEpochHeight validators
              (takeUnstakedBalance ch w).world
            have hTUn : ∀ x ∈ (takeUnstakedBalance ch w).sent ++
                (updateValidatorLoop ch ep.NetworkEpochHeight validators
                  (takeUnstakedBalance ch w).world).sent, x.1 ≠ Call.update := by
              intro x hx
              rcases List.mem_append.1 hx with h | h
              · exact hTn x h
              · exact hUn x h
            cases huerr : (updateValidatorLoop ch ep.NetworkEpochHeight validators
                (takeUnstakedBalance ch w).world).err with
            | some e =>
              rw [huerr] at hU
              exact ⟨_, some e, hTUn, CheckedBy_append _ _ _ _ hT hU,
                Or.inl ⟨rfl, fun _ => ⟨_, rfl⟩⟩⟩
            | none =>
              rw [huerr] at hU
              dsimp only
              have hD : CheckedBy (acceptedBy ch w)
                  (requestedDecreaseValidatorStake nfs ch
                    (updateValidatorLoop ch ep.NetworkEpochHeight validators
                      (takeUnstakedBalance ch w).world).world).err
                  (requestedDecreaseValidatorStake nfs ch
                    (updateValidatorLoop ch ep.NetworkEpochHeight validators
                      (takeUnstakedBalance ch w).world).world).sent := by
                cases hv3 : (ch.view (updateValidatorLoop ch ep.NetworkEpochHeight validators
                    (takeUnstakedBalance ch w).world).world).get_current_epoch_height with
                | error e =>
                  rw [requestedDecrease_sent_of_error nfs ch _ e hv3]
                  exact CheckedBy_nil _ _
                | ok ep3 =>
                  refine CheckedBy_of_Checked ch w ep3.NetworkEpochHeight _ _
                    (requestedDecrease_checked nfs ch _ ep3 hv3) ?_
                  intro x hx
                  obtain ⟨id, amount, ty, h⟩ := requestedDecrease_decrease_only nfs ch _ x hx
                  rw [h]
                  simp only [phaseEpoch, hep, hreg]
                  exact networkEpochAt_ok ch _ ep3 hv3
              have hDn := requestedDecrease_no_update nfs ch
                (updateValidatorLoop ch ep.NetworkEpochHeight validators
                  (takeUnstakedBalance ch w).world).world
              have hAn : ∀ x ∈ (takeUnstakedBalance ch w).sent ++
                  (updateValidatorLoop ch ep.NetworkEpochHeight validators
                    (takeUnstakedBalance ch w).world).sent ++
                  (requestedDecreaseValidatorStake nfs ch
                    (updateValidatorLoop ch ep.NetworkEpochHeight validators
                      (takeUnstakedBalance ch w).world).world).sent, x.1 ≠ Call.update := by
                intro x hx
                rcases List.mem_append.1 hx with h | h
                · exact hTUn x h
                · exact hDn x h
              cases hderr : (requestedDecreaseValidatorStake nfs ch
                  (updateValidatorLoop ch ep.NetworkEpochHeight validators
                    (takeUnstakedBalance ch w).world).world).err with
              | some e =>
                rw [hderr] at hD
                exact ⟨_, some e, hAn,
                  CheckedBy_append _ _ _ _ (CheckedBy_append _ _ _ _ hT hU) hD,
                  Or.inl ⟨rfl, fun _ => ⟨_, rfl⟩⟩⟩
              | none =>
                rw [hderr] at hD
                dsimp only
                have hA := CheckedBy_append _ _ _ _ (CheckedBy_append _ _ _ _ hT hU) hD
                split
                all_goals exact ⟨_, none, hAn, hA, Or.inr ⟨rfl, _, rfl⟩⟩

/-- Claim C7 as stated fails: on a chain that moves from network epoch 103 to
104 during the tick, the tick starts by reading 103, the decrease of phase 3 is
answered with `network_epoch = 104`, which differs from the epoch read at the
start of the tick, and `PoolUpdate` still sends `update` and returns success. -/
theorem PoolUpdate_accepts_later_epoch :
    networkEpochAt advancingChain 0 = some 103 ∧
      (PoolUpdate sampleNewFromString advancingChain 0).sent =
        [(Call.update_validator "A", SendOutcome.successValue
            (.callbackResult { IsSuccess := true, NetworkEpochHeight := 103 })),
         (Call.requested_decrease_validator_stake "A" (3 * 10 ^ 24) stakeDecreasingType.Classic,
            SendOutcome.successValue
              (.callbackResult { IsSuccess := true, NetworkEpochHeight := 104 })),
         (Call.update, SendOutcome.successValue
            (.callbackResult { IsSuccess := true, NetworkEpochHeight := 104 }))] ∧
      (PoolUpdate sampleNewFromString advancingChain 0).result = .returned none := by
  decide

/-- Claim C7, amended (`CallbackResult` validation): in every tick of `PoolUpdate`,
if a call other than `update` (a `take_unstaked_balance`, `update_validator` or
`requested_decrease_validator_stake`) is answered by a `CallbackResult` with
`is_success == false`, or with a `network_epoch` other than the network epoch
read by the phase that sent the call (`takeUnstakedBalance`, the `update_validator`
loop of `PoolUpdate` and `requestedDecreaseValidatorStake` each read
`get_current_epoch_height` themselves), then `PoolUpdate` returns an error, that
call is the last transaction of the tick, and `update` is never sent. -/
theorem PoolUpdate_callback_validation {W : Type} (newFromString : String → Option Int)
    (ch : Chain W) (w : W) (pre post : Trace) (call : Call) (r : CallbackResult)
    (hsent : (PoolUpdate newFromString ch w).sent =
      pre ++ (call, SendOutcome.successValue (.callbackResult r)) :: post)
    (hcall : call ≠ Call.update)
    (hbad : r.IsSuccess = false ∨ phaseEpoch ch w call ≠ some r.NetworkEpochHeight) :
    (∃ e, (PoolUpdate newFromString ch w).result = .returned (some e)) ∧ post = [] ∧
      ∀ out, (Call.update, out) ∉ (PoolUpdate newFromString ch w).sent := by
  have hnot : ¬ acceptedBy ch w (call, SendOutcome.successValue (.callbackResult r)) := by
    rintro ⟨E, hE, r1, h1, h2, h3⟩
    simp only [SendOutcome.successValue.injEq, ResponseBody.callbackResult.injEq] at h1
    subst h1
    rcases hbad with h | h
    · rw [h] at h2
      cases h2
    · apply h
      rw [h3]
      exact hE
  obtain ⟨body, err, hno, hchk, hshape⟩ := PoolUpdate_shape newFromString ch w
  rcases hshape with ⟨hb, herr⟩ | ⟨herr, out, hb⟩
  · have hbody : body = pre ++ (call, SendOutcome.successValue (.callbackResult r)) :: post := by
      rw [← hb, hsent]
    have hpost : post = [] := by
      by_contra hne
      exact hnot (hchk.1 pre _ post hbody hne)
    have herr1 : err ≠ none := by
      intro he
      exact hnot (hchk.2 he _ (by rw [hbody]; simp))
    refine ⟨herr herr1, hpost, ?_⟩
    intro o ho
    rw [hb] at ho
    exact hno _ ho rfl
  · exfalso
    have hmem : (call, SendOutcome.successValue (.callbackResult r)) ∈
        body ++ [(Call.update, out)] := by
      rw [← hb, hsent]
      simp
    rcases List.mem_append.1 hmem with h | h
    · exact hnot (hchk.2 herr _ h)
    · simp only [List.mem_singleton, Prod.mk.injEq] at h
      exact hcall h.1

/-- Claim C7, witness: `update_validator` on `B` answered with
`is_success = false` after two accepted calls. -/
theorem PoolUpdate_callback_validation_witness :
    (PoolUpdate sampleNewFromString failingChain ()).sent =
        [(Call.take_unstaked_balance "A", okAt100), (Call.update_validator "A", okAt100)] ++
          (Call.update_validator "B", SendOutcome.successValue
            (.callbackResult { IsSuccess := false, NetworkEpochHeight := 100 })) :: [] ∧
      ((∃ e, (PoolUpdate sampleNewFromString failingChain ()).result = .returned (some e)) ∧
        ([] : Trace) = [] ∧
        ∀ out, (Call.update, out) ∉ (PoolUpdate sampleNewFromString failingChain ()).sent) :=
  ⟨by decide, PoolUpdate_callback_validation sampleNewFromString failingChain ()
    [(Call.take_unstaked_balance "A", okAt100), (Call.update_validator "A", okAt100)] []
    (Call.update_validator "B") { IsSuccess := false, NetworkEpochHeight := 100 }
    (by decide) (by decide) (Or.inl rfl)⟩

/-- When the epoch and registry views do not change during the tick, every
phase reads the network epoch read at the start of the tick. -/
theorem phaseEpoch_steady {W : Type} (ch : Chain W) (w : W) (ep : EpochHeightRegistry)
    (validators : List Validator)
    (hepc : ∀ w1, (ch.view w1).get_current_epoch_height = .ok ep)
    (hreg : ∀ w1, (ch.view w1).get_validator_registry = .ok validators) (id : String)
    (amount : Int) (ty : stakeDecreasingType) :
    phaseEpoch ch w (Call.take_unstaked_balance id) = some ep.NetworkEpochHeight ∧
      phaseEpoch ch w (Call.update_validator id) = some ep.NetworkEpochHeight ∧
      phaseEpoch ch w (Call.requested_decrease_validator_stake id amount ty) =
        some ep.NetworkEpochHeight := by
  refine ⟨networkEpochAt_ok ch _ ep (hepc _), networkEpochAt_ok ch _ ep (hepc _), ?_⟩
  simp only [phaseEpoch, hepc, hreg]
  exact networkEpochAt_ok ch _ ep (hepc _)

end StakePool
